import Mathlib

/-!
Shallow embedding of the context-preservation core of the repository:
the hybrid memory-retrieval scoring functions (`calculateDynamicThreshold`,
`applyDynamicThreshold`, `mergeHybridResults`, `calculateRecencyPenalty`,
`searchVector`) and the conversation-compaction safeguard
(`extractOpaqueIdentifiers`, `auditSummaryQuality`,
`splitPreservedRecentTurns`, the `session_before_compact` handler).

JavaScript numbers are modelled as rationals (`ℚ`); JavaScript strings as
`List Char`, or as atomic `String` values where no character-level operation
is performed on them; fallible calls as `Except`; `Array.prototype.sort`
(stable, by the comparator `(a, b) => b.score - a.score`) as a stable
insertion sort, which agrees with any stable sort for a total preorder.
-/

namespace OpenClaw

/-! ## Retrieval side: dynamic threshold (`part_002`) -/

/-- `calculateDynamicThreshold(topScore)` from the hybrid-search module. -/
def calculateDynamicThreshold (topScore : ℚ) : ℚ :=
  if 7/10 ≤ topScore then topScore * (5/10)
  else if 3/10 ≤ topScore then topScore * (6/10)
  else 15/100

/-- `applyDynamicThreshold(results, dynamicThreshold)`; generic over any
record type exposing a numeric `score` (passed as the `score` projection). -/
def applyDynamicThreshold {α : Type} (score : α → ℚ) (results : List α)
    (dynamicThreshold : Bool) : List α :=
  match dynamicThreshold, results with
  | false, _ => results
  | true, [] => []
  | true, top :: rest =>
    let threshold := calculateDynamicThreshold (score top)
    (top :: rest).filter (fun r => threshold ≤ score r)

/-! ## Retrieval side: recency penalty (`manager-search.ts`) -/

/-- `calculateRecencyPenalty(updatedAt, now, lambda, windowDays)`:
`updatedAt` is `number | null | undefined`, modelled as `Option ℚ`. -/
def calculateRecencyPenalty (updatedAt : Option ℚ) (now lambda windowDays : ℚ) : ℚ :=
  match updatedAt with
  | none => 0
  | some u =>
    if now < u then 0
    else
      let msPerDay : ℚ := 24 * 60 * 60 * 1000
      let daysSince := (now - u) / msPerDay
      let ratio := min 1 (daysSince / windowDays)
      lambda * ratio

/-! ## Claim C4: dynamic threshold tiers -/

/-- **C4.** For every input `topScore`: `calculateDynamicThreshold topScore ≥ 0.15`;
it equals `0.5 × topScore` when `topScore ≥ 0.7`, equals `0.6 × topScore` when
`0.3 ≤ topScore < 0.7`, and equals `0.15` otherwise — in particular every
negative `topScore` yields `0.15`. -/
theorem calculateDynamicThreshold_spec (t : ℚ) :
    15/100 ≤ calculateDynamicThreshold t
    ∧ (7/10 ≤ t → calculateDynamicThreshold t = t * (5/10))
    ∧ (3/10 ≤ t ∧ t < 7/10 → calculateDynamicThreshold t = t * (6/10))
    ∧ (t < 3/10 → calculateDynamicThreshold t = 15/100)
    ∧ (t < 0 → calculateDynamicThreshold t = 15/100) := by
  unfold calculateDynamicThreshold
  split
  · rename_i h
    refine ⟨by linarith, fun _ => rfl, fun hc => absurd h (by linarith [hc.2]),
      fun hc => absurd h (by linarith), fun hc => absurd h (by linarith)⟩
  · rename_i h
    split
    · rename_i h2
      refine ⟨by linarith, fun hc => absurd hc h, fun _ => rfl,
        fun hc => absurd h2 (by linarith), fun hc => absurd h2 (by linarith)⟩
    · rename_i h2
      exact ⟨le_refl _, fun hc => absurd hc h, fun hc => absurd hc.1 h2,
        fun _ => rfl, fun _ => rfl⟩

/-- Witness for C4: evaluates the tier equations at concrete inputs. -/
theorem calculateDynamicThreshold_spec_witness :
    calculateDynamicThreshold (8/10) = (8/10) * (5/10)
    ∧ calculateDynamicThreshold (4/10) = (4/10) * (6/10)
    ∧ calculateDynamicThreshold (-1) = 15/100 :=
  ⟨(calculateDynamicThreshold_spec (8/10)).2.1 (by norm_num),
   (calculateDynamicThreshold_spec (4/10)).2.2.1 (by norm_num),
   (calculateDynamicThreshold_spec (-1)).2.2.2.2 (by norm_num)⟩

/-! ## Claim C3: recency penalty -/

/-- **C3.** For every `updatedAt ≤ now`, `lambda ∈ [0,1]`, `windowDays ≥ 1`:
the penalty equals `lambda × min(1, (now − updatedAt) / (windowDays × 86_400_000))`,
lies in `[0, lambda]`, is monotonic non-decreasing in the age `now − updatedAt`,
and equals `lambda` when the age is at least `windowDays × 86_400_000`.
For `updatedAt` null/undefined or `updatedAt > now` the penalty is exactly `0`. -/
theorem calculateRecencyPenalty_spec (u now lambda windowDays : ℚ)
    (hu : u ≤ now) (hl0 : 0 ≤ lambda) (hl1 : lambda ≤ 1) (hW : 1 ≤ windowDays) :
    calculateRecencyPenalty (some u) now lambda windowDays
      = lambda * min 1 ((now - u) / (windowDays * 86400000))
    ∧ 0 ≤ calculateRecencyPenalty (some u) now lambda windowDays
    ∧ calculateRecencyPenalty (some u) now lambda windowDays ≤ lambda
    ∧ (∀ u', u' ≤ u →
        calculateRecencyPenalty (some u) now lambda windowDays
          ≤ calculateRecencyPenalty (some u') now lambda windowDays)
    ∧ (windowDays * 86400000 ≤ now - u →
        calculateRecencyPenalty (some u) now lambda windowDays = lambda)
    ∧ calculateRecencyPenalty none now lambda windowDays = 0
    ∧ (∀ u'', now < u'' →
        calculateRecencyPenalty (some u'') now lambda windowDays = 0) := by
  have hWpos : (0:ℚ) < windowDays := by linarith
  have hpen : ∀ v : ℚ, v ≤ now →
      calculateRecencyPenalty (some v) now lambda windowDays
        = lambda * min 1 ((now - v) / (24 * 60 * 60 * 1000) / windowDays) := by
    intro v hv
    unfold calculateRecencyPenalty
    simp only [not_lt.mpr hv, if_neg (not_lt.mpr hv)]
    simp
  have hdiv : ∀ v : ℚ, (now - v) / (24 * 60 * 60 * 1000) / windowDays
      = (now - v) / (windowDays * 86400000) := by
    intro v
    rw [div_div, show (24 * 60 * 60 * 1000 : ℚ) * windowDays = windowDays * 86400000 by ring]
  have heq : calculateRecencyPenalty (some u) now lambda windowDays
      = lambda * min 1 ((now - u) / (windowDays * 86400000)) := by
    rw [hpen u hu, hdiv]
  have hden : (0:ℚ) < windowDays * 86400000 := by positivity
  have hratio0 : 0 ≤ (now - u) / (windowDays * 86400000) :=
    div_nonneg (by linarith) (le_of_lt hden)
  refine ⟨heq, ?_, ?_, ?_, ?_, rfl, ?_⟩
  · rw [heq]
    exact mul_nonneg hl0 (le_min (by norm_num) hratio0)
  · rw [heq]
    calc lambda * min 1 ((now - u) / (windowDays * 86400000))
        ≤ lambda * 1 := mul_le_mul_of_nonneg_left (min_le_left _ _) hl0
      _ = lambda := mul_one lambda
  · intro u' hu'
    have heq' : calculateRecencyPenalty (some u') now lambda windowDays
        = lambda * min 1 ((now - u') / (windowDays * 86400000)) := by
      rw [hpen u' (le_trans hu' hu), hdiv]
    rw [heq, heq']
    apply mul_le_mul_of_nonneg_left _ hl0
    apply min_le_min (le_refl 1)
    exact div_le_div_of_le_of_nonneg (by linarith) hden.le
  · intro hage
    rw [heq]
    have : (1:ℚ) ≤ (now - u) / (windowDays * 86400000) :=
      (one_le_div hden).mpr hage
    rw [min_eq_left this, mul_one]
  · intro u'' hu''
    unfold calculateRecencyPenalty
    simp [hu'']

/-- Witness for C3 at the spec's half-window scenario:
age `7 · 86_400_000` ms, `λ = 0.08`, `W = 14` gives penalty `0.04`. -/
theorem calculateRecencyPenalty_spec_witness :
    calculateRecencyPenalty (some (1700000000000 - 7 * 86400000)) 1700000000000
      (8/100) 14
      = (8/100) * min 1 ((1700000000000 - (1700000000000 - 7 * 86400000)) / (14 * 86400000)) :=
  (calculateRecencyPenalty_spec (1700000000000 - 7 * 86400000) 1700000000000 (8/100) 14
    (by norm_num) (by norm_num) (by norm_num) (by norm_num)).1

/-! ## Claim C5: idempotence of the enabled dynamic-threshold filter -/

/-- Head of a descending-sorted list is a maximum. -/
theorem head_max_of_sorted {α : Type} (score : α → ℚ) (top : α) (rest : List α)
    (hsort : (top :: rest).Pairwise (fun a b => score b ≤ score a)) :
    ∀ x ∈ top :: rest, score x ≤ score top := by
  intro x hx
  rcases List.mem_cons.mp hx with h | h
  · rw [h]
  · exact (List.pairwise_cons.mp hsort).1 x h

/-- Unfolding equation for `applyDynamicThreshold` on a non-empty list with
the flag enabled. -/
theorem applyDynamicThreshold_cons {α : Type} (score : α → ℚ) (top : α) (rest : List α) :
    applyDynamicThreshold score (top :: rest) true
      = (top :: rest).filter
          (fun r => calculateDynamicThreshold (score top) ≤ score r) := rfl

/-- **C5.** For every list of score-carrying records sorted in descending
score order, applying the enabled dynamic-threshold filter is idempotent. -/
theorem applyDynamicThreshold_idempotent {α : Type} (score : α → ℚ) (r : List α)
    (hsort : r.Pairwise (fun a b => score b ≤ score a)) :
    applyDynamicThreshold score (applyDynamicThreshold score r true) true
      = applyDynamicThreshold score r true := by
  match r with
  | [] => rfl
  | top :: rest =>
    have hmax := head_max_of_sorted score top rest hsort
    rw [applyDynamicThreshold_cons]
    by_cases hkeep : calculateDynamicThreshold (score top) ≤ score top
    · rw [List.filter_cons_of_pos (by simpa using hkeep), applyDynamicThreshold_cons,
        List.filter_cons_of_pos (by simpa using hkeep), List.filter_filter]
      simp
    · -- head fails its own threshold: only possible in the floor tier, and then
      -- every element is below the floor, so the filter is empty.
      have htop : score top < 15/100 := by
        rcases (calculateDynamicThreshold_spec (score top)) with ⟨hfloor, hhi, hmid, hlo, _⟩
        by_cases h1 : 7/10 ≤ score top
        · exact absurd (by rw [hhi h1]; linarith) hkeep
        · by_cases h2 : 3/10 ≤ score top
          · exact absurd (by rw [hmid ⟨h2, lt_of_not_le h1⟩]; linarith) hkeep
          · have := hlo (lt_of_not_le h2)
            rw [this] at hkeep
            linarith [lt_of_not_le hkeep]
      have hthr : calculateDynamicThreshold (score top) = 15/100 :=
        (calculateDynamicThreshold_spec (score top)).2.2.2.1 (by linarith)
      have hempty : (top :: rest).filter
          (fun x => calculateDynamicThreshold (score top) ≤ score x) = [] := by
        apply List.filter_eq_nil_iff.mpr
        intro x hx
        rw [hthr]
        simp only [decide_eq_true_eq, not_le]
        calc score x ≤ score top := hmax x hx
          _ < 15/100 := htop
      rw [hempty]
      rfl

/-- Witness for C5 at a concrete sorted list. -/
theorem applyDynamicThreshold_idempotent_witness :
    applyDynamicThreshold id
        (applyDynamicThreshold id [(8:ℚ)/10, 5/10, 4/10, 3/10, 1/10] true) true
      = applyDynamicThreshold id [(8:ℚ)/10, 5/10, 4/10, 3/10, 1/10] true :=
  applyDynamicThreshold_idempotent id [(8:ℚ)/10, 5/10, 4/10, 3/10, 1/10]
    (by norm_num [List.pairwise_cons])

/-! ## Claim C10: enabled dynamic-threshold filter on a well-formed input -/

/-- **C10.** For every non-empty descending-sorted list whose first element has
score `≥ 0.15`, `applyDynamicThreshold(results, true)` is non-empty, keeps the
input's first element first, and equals the subsequence of entries with
`score ≥ calculateDynamicThreshold(results[0].score)`, records unmodified. -/
theorem applyDynamicThreshold_enabled_spec {α : Type} (score : α → ℚ)
    (top : α) (rest : List α)
    (hsort : (top :: rest).Pairwise (fun a b => score b ≤ score a))
    (hhead : 15/100 ≤ score top) :
    applyDynamicThreshold score (top :: rest) true ≠ []
    ∧ (applyDynamicThreshold score (top :: rest) true).head? = some top
    ∧ applyDynamicThreshold score (top :: rest) true
        = (top :: rest).filter (fun x => calculateDynamicThreshold (score top) ≤ score x)
    ∧ (applyDynamicThreshold score (top :: rest) true).Sublist (top :: rest) := by
  have hkeep : calculateDynamicThreshold (score top) ≤ score top := by
    rcases (calculateDynamicThreshold_spec (score top)) with ⟨_, hhi, hmid, hlo, _⟩
    by_cases h1 : 7/10 ≤ score top
    · rw [hhi h1]; linarith
    · by_cases h2 : 3/10 ≤ score top
      · rw [hmid ⟨h2, lt_of_not_le h1⟩]; linarith
      · rw [hlo (lt_of_not_le h2)]; exact hhead
  have heq : applyDynamicThreshold score (top :: rest) true
      = (top :: rest).filter (fun x => calculateDynamicThreshold (score top) ≤ score x) := rfl
  have hcons : (top :: rest).filter
      (fun x => calculateDynamicThreshold (score top) ≤ score x)
      = top :: rest.filter (fun x => calculateDynamicThreshold (score top) ≤ score x) :=
    List.filter_cons_of_pos (by simpa using hkeep)
  refine ⟨?_, ?_, heq, ?_⟩
  · rw [heq, hcons]; exact List.cons_ne_nil _ _
  · rw [heq, hcons]; rfl
  · rw [heq]; exact List.filter_sublist _

/-- Witness for C10 at a concrete sorted list with head score `0.8`. -/
theorem applyDynamicThreshold_enabled_spec_witness :
    (applyDynamicThreshold id ((8:ℚ)/10 :: [5/10, 4/10, 3/10, 1/10]) true).head?
      = some ((8:ℚ)/10) :=
  (applyDynamicThreshold_enabled_spec id ((8:ℚ)/10) [5/10, 4/10, 3/10, 1/10]
    (by norm_num [List.pairwise_cons]) (by norm_num)).2.1

/-! ## Stable descending sort

`Array.prototype.sort((a, b) => b.score - a.score)` is a stable sort by
descending score.  A stable sort for a total preorder is extensionally unique,
so it is modelled by a stable insertion sort: each element is inserted after
every already-placed element of greater-or-equal key. -/

/-- Insert `x` into a descending-sorted list, after all elements with
greater-or-equal key (stable placement). -/
def insertDesc {α : Type} (key : α → ℚ) (x : α) : List α → List α
  | [] => [x]
  | y :: ys => if key y < key x then x :: y :: ys else y :: insertDesc key x ys

/-- Stable descending sort by `key`. -/
def stableSortDesc {α : Type} (key : α → ℚ) (l : List α) : List α :=
  l.foldl (fun acc x => insertDesc key x acc) []

theorem insertDesc_perm {α : Type} (key : α → ℚ) (x : α) (l : List α) :
    (insertDesc key x l).Perm (x :: l) := by
  induction l with
  | nil => exact List.Perm.refl _
  | cons y ys ih =>
    unfold insertDesc
    split
    · exact List.Perm.refl _
    · exact (List.Perm.cons y ih).trans (List.Perm.swap x y ys)

theorem insertDesc_sorted {α : Type} (key : α → ℚ) (x : α) (l : List α)
    (hl : l.Pairwise (fun a b => key b ≤ key a)) :
    (insertDesc key x l).Pairwise (fun a b => key b ≤ key a) := by
  induction l with
  | nil => simp [insertDesc]
  | cons y ys ih =>
    rcases List.pairwise_cons.mp hl with ⟨hy, hys⟩
    unfold insertDesc
    split
    · rename_i hlt
      refine List.pairwise_cons.mpr ⟨?_, hl⟩
      intro z hz
      rcases List.mem_cons.mp hz with h | h
      · rw [h]; exact hlt.le
      · exact le_trans (hy z h) hlt.le
    · rename_i hge
      refine List.pairwise_cons.mpr ⟨?_, ih hys⟩
      intro z hz
      rcases List.mem_cons.mp ((insertDesc_perm key x ys).mem_iff.mp hz) with h | h
      · rw [h]; exact le_of_not_lt hge
      · exact hy z h

theorem insertDesc_filter_key {α : Type} (key : α → ℚ) (x : α) (l : List α)
    (hl : l.Pairwise (fun a b => key b ≤ key a)) (q : ℚ) :
    (insertDesc key x l).filter (fun y => key y = q)
      = l.filter (fun y => key y = q) ++ (if key x = q then [x] else []) := by
  induction l with
  | nil =>
    simp only [insertDesc, List.filter_nil, List.nil_append]
    by_cases h : key x = q <;> simp [h]
  | cons y ys ih =>
    rcases List.pairwise_cons.mp hl with ⟨hy, hys⟩
    unfold insertDesc
    split
    · rename_i hlt
      -- `x` lands in front: every element of `y :: ys` has key ≤ key y < key x,
      -- so if `key x = q` nothing in `y :: ys` has key `q`.
      by_cases hx : key x = q
      · have hnone : (y :: ys).filter (fun z => key z = q) = [] := by
          apply List.filter_eq_nil_iff.mpr
          intro z hz
          have hle : key z ≤ key y := by
            rcases List.mem_cons.mp hz with h | h
            · rw [h]
            · exact hy z h
          simp only [decide_eq_true_eq]
          intro hzq
          rw [← hx] at hzq
          exact absurd hzq (by linarith)
        rw [List.filter_cons_of_pos (by simpa using hx), hnone, hx]
        simp
      · rw [List.filter_cons_of_neg (by simpa using hx)]
        simp [hx]
    · rename_i hge
      by_cases hyq : key y = q
      · rw [List.filter_cons_of_pos (by simpa using hyq),
          List.filter_cons_of_pos (by simpa using hyq), ih hys]
        simp
      · rw [List.filter_cons_of_neg (by simpa using hyq),
          List.filter_cons_of_neg (by simpa using hyq), ih hys]

/-- Core invariant of the fold implementing `stableSortDesc`. -/
theorem stableSortDesc_fold_spec {α : Type} (key : α → ℚ) (l acc : List α)
    (hacc : acc.Pairwise (fun a b => key b ≤ key a)) :
    (l.foldl (fun acc x => insertDesc key x acc) acc).Pairwise
        (fun a b => key b ≤ key a)
    ∧ (l.foldl (fun acc x => insertDesc key x acc) acc).Perm (acc ++ l)
    ∧ ∀ q : ℚ, (l.foldl (fun acc x => insertDesc key x acc) acc).filter
          (fun y => key y = q)
        = acc.filter (fun y => key y = q) ++ l.filter (fun y => key y = q) := by
  induction l generalizing acc with
  | nil => exact ⟨hacc, by simp, fun q => by simp⟩
  | cons x xs ih =>
    have hstep := ih (insertDesc key x acc) (insertDesc_sorted key x acc hacc)
    simp only [List.foldl_cons]
    refine ⟨hstep.1, ?_, ?_⟩
    · exact hstep.2.1.trans
        (((insertDesc_perm key x acc).append_right xs).trans List.perm_middle.symm)
    · intro q
      rw [hstep.2.2 q, insertDesc_filter_key key x acc hacc q]
      by_cases hx : key x = q
      · rw [List.filter_cons_of_pos (by simpa using hx)]
        simp [hx]
      · rw [List.filter_cons_of_neg (by simpa using hx)]
        simp [hx]

theorem stableSortDesc_sorted {α : Type} (key : α → ℚ) (l : List α) :
    (stableSortDesc key l).Pairwise (fun a b => key b ≤ key a) :=
  (stableSortDesc_fold_spec key l [] (List.Pairwise.nil)).1

theorem stableSortDesc_perm {α : Type} (key : α → ℚ) (l : List α) :
    (stableSortDesc key l).Perm l :=
  (stableSortDesc_fold_spec key l [] (List.Pairwise.nil)).2.1

theorem stableSortDesc_filter_key {α : Type} (key : α → ℚ) (l : List α) (q : ℚ) :
    (stableSortDesc key l).filter (fun y => key y = q)
      = l.filter (fun y => key y = q) :=
  (stableSortDesc_fold_spec key l [] (List.Pairwise.nil)).2.2 q

/-! ## Hybrid merge (`part_002`, `mergeHybridResults`)

Chunk ids, paths, sources and snippets carry no character-level operations
here, so they are modelled as atomic `String`s.  The JavaScript `Map` keyed by
id (insertion-ordered, `set` overwrites in place) is modelled as an
association list. -/

structure HybridVectorResult where
  id : String
  path : String
  startLine : ℤ
  endLine : ℤ
  source : String
  snippet : String
  vectorScore : ℚ
deriving DecidableEq

structure HybridKeywordResult where
  id : String
  path : String
  startLine : ℤ
  endLine : ℤ
  source : String
  snippet : String
  textScore : ℚ
deriving DecidableEq

/-- An entry of the `byId` map inside `mergeHybridResults`. -/
structure MergedEntry where
  id : String
  path : String
  startLine : ℤ
  endLine : ℤ
  source : String
  snippet : String
  vectorScore : ℚ
  textScore : ℚ
deriving DecidableEq

/-- The output record type of `mergeHybridResults` (drops `id`). -/
structure HybridMerged where
  path : String
  startLine : ℤ
  endLine : ℤ
  score : ℚ
  snippet : String
  source : String
deriving DecidableEq

/-- The `byId` entry created for a vector result (`textScore: 0`). -/
def entryOfVector (r : HybridVectorResult) : MergedEntry :=
  ⟨r.id, r.path, r.startLine, r.endLine, r.source, r.snippet, r.vectorScore, 0⟩

/-- The `byId` entry created for a keyword result absent on the vector side
(`vectorScore: 0`). -/
def entryOfKeyword (r : HybridKeywordResult) : MergedEntry :=
  ⟨r.id, r.path, r.startLine, r.endLine, r.source, r.snippet, 0, r.textScore⟩

/-- The in-place update a keyword result applies to an existing `byId` entry:
set `textScore`, and replace the snippet when the keyword snippet is
non-empty. -/
def updateEntryWithKeyword (e : MergedEntry) (r : HybridKeywordResult) : MergedEntry :=
  { e with
    textScore := r.textScore
    snippet := if r.snippet ≠ "" then r.snippet else e.snippet }

/-- `byId.set(r.id, …)` for a vector result: overwrite in place if the key is
present, append otherwise. -/
def insertVector (byId : List MergedEntry) (r : HybridVectorResult) : List MergedEntry :=
  if byId.any (fun e => e.id = r.id) then
    byId.map (fun e => if e.id = r.id then entryOfVector r else e)
  else
    byId ++ [entryOfVector r]

/-- The keyword loop body: update the existing entry in place, or append a
keyword-only entry. -/
def insertKeyword (byId : List MergedEntry) (r : HybridKeywordResult) : List MergedEntry :=
  if byId.any (fun e => e.id = r.id) then
    byId.map (fun e => if e.id = r.id then updateEntryWithKeyword e r else e)
  else
    byId ++ [entryOfKeyword r]

/-- The `byId` map after both loops of `mergeHybridResults`, in insertion
order. -/
def buildById (vector : List HybridVectorResult) (keyword : List HybridKeywordResult) :
    List MergedEntry :=
  keyword.foldl insertKeyword (vector.foldl insertVector [])

/-- `mergeHybridResults({vector, keyword, vectorWeight, textWeight,
dynamicThreshold?})`. -/
def mergeHybridResults (vector : List HybridVectorResult)
    (keyword : List HybridKeywordResult) (vectorWeight textWeight : ℚ)
    (dynamicThreshold : Option Bool) : List HybridMerged :=
  let merged := (buildById vector keyword).map (fun e =>
    ⟨e.path, e.startLine, e.endLine,
      vectorWeight * e.vectorScore + textWeight * e.textScore, e.snippet, e.source⟩)
  let sorted := stableSortDesc (fun r => r.score) merged
  applyDynamicThreshold (fun r => r.score) sorted (dynamicThreshold.getD false)

/-- The entry the merge produces for a vector result, given the keyword-side
lookup of the same id (`none` when the id is absent on the keyword side). -/
def mergedEntryOfVector (rv : HybridVectorResult) :
    Option HybridKeywordResult → MergedEntry
  | none => entryOfVector rv
  | some rk => updateEntryWithKeyword (entryOfVector rv) rk

/-! ### Characterization of `buildById` -/

theorem insertVector_of_not_mem (byId : List MergedEntry) (r : HybridVectorResult)
    (h : ∀ e ∈ byId, e.id ≠ r.id) :
    insertVector byId r = byId ++ [entryOfVector r] := by
  unfold insertVector
  rw [if_neg]
  simp only [List.any_eq_true, decide_eq_true_eq]
  rintro ⟨e, he, hid⟩
  exact h e he hid

theorem insertKeyword_pos (byId : List MergedEntry) (r : HybridKeywordResult)
    (h : byId.any (fun e => e.id = r.id) = true) :
    insertKeyword byId r
      = byId.map (fun e => if e.id = r.id then updateEntryWithKeyword e r else e) := by
  unfold insertKeyword
  rw [if_pos h]

theorem insertKeyword_neg (byId : List MergedEntry) (r : HybridKeywordResult)
    (h : ¬ byId.any (fun e => e.id = r.id) = true) :
    insertKeyword byId r = byId ++ [entryOfKeyword r] := by
  unfold insertKeyword
  rw [if_neg h]

/-- The vector loop over ids pairwise distinct from each other and from the
accumulator simply appends. -/
theorem foldl_insertVector_eq_append (vector : List HybridVectorResult)
    (acc : List MergedEntry)
    (hdisj : ∀ e ∈ acc, ∀ r ∈ vector, e.id ≠ r.id)
    (hnodup : (vector.map (fun r => r.id)).Nodup) :
    vector.foldl insertVector acc = acc ++ vector.map entryOfVector := by
  induction vector generalizing acc with
  | nil => simp
  | cons r rs ih =>
    rw [List.foldl_cons, insertVector_of_not_mem acc r
      (fun e he => hdisj e he r (List.mem_cons_self r rs))]
    rw [List.map_cons, List.nodup_cons] at hnodup
    rw [ih (acc ++ [entryOfVector r]) ?_ hnodup.2, List.map_cons]
    · simp
    · intro e he r' hr'
      rcases List.mem_append.mp he with h | h
      · exact hdisj e h r' (List.mem_cons_of_mem r hr')
      · rcases List.mem_singleton.mp h with rfl
        show r.id ≠ r'.id
        intro hcontra
        exact hnodup.1 (hcontra ▸ List.mem_map_of_mem (fun x => x.id) hr')

/-- The keyword loop: each accumulator entry receives the (unique) keyword
update for its id, and keyword results with fresh ids are appended in order. -/
theorem foldl_insertKeyword_spec (keyword : List HybridKeywordResult)
    (acc : List MergedEntry)
    (haccnodup : (acc.map (fun e => e.id)).Nodup)
    (hknodup : (keyword.map (fun r => r.id)).Nodup) :
    keyword.foldl insertKeyword acc
      = acc.map (fun e =>
          match keyword.find? (fun r => r.id = e.id) with
          | none => e
          | some r => updateEntryWithKeyword e r)
        ++ (keyword.filter
              (fun r => ¬ acc.any (fun e => e.id = r.id))).map entryOfKeyword := by
  induction keyword generalizing acc with
  | nil => simp
  | cons r rs ih =>
    rw [List.map_cons, List.nodup_cons] at hknodup
    rw [List.foldl_cons]
    have hid_upd : ((fun e : MergedEntry => e.id) ∘
        fun e => if e.id = r.id then updateEntryWithKeyword e r else e)
          = fun e : MergedEntry => e.id := by
      funext e
      by_cases h : e.id = r.id <;> simp [h, updateEntryWithKeyword]
    by_cases hmem : acc.any (fun e => e.id = r.id)
    · rw [insertKeyword_pos acc r hmem]
      have hupdnodup : ((acc.map (fun e =>
          if e.id = r.id then updateEntryWithKeyword e r else e)).map
            (fun e => e.id)).Nodup := by
        rw [List.map_map, hid_upd]
        exact haccnodup
      rw [ih _ hupdnodup hknodup.2]
      have hfilter : rs.filter (fun r' => ¬ (acc.map (fun e =>
            if e.id = r.id then updateEntryWithKeyword e r else e)).any
              (fun e => e.id = r'.id))
          = rs.filter (fun r' => ¬ acc.any (fun e => e.id = r'.id)) := by
        apply List.filter_congr
        intro r' _
        have hany : ((acc.map (fun e =>
              if e.id = r.id then updateEntryWithKeyword e r else e)).any
                (fun e => e.id = r'.id))
            = acc.any (fun e => e.id = r'.id) := by
          rw [List.any_map]
          congr 1
          funext e
          by_cases h : e.id = r.id <;> simp [h, updateEntryWithKeyword, Function.comp]
        rw [hany]
      have hfilterr : (r :: rs).filter (fun r' => ¬ acc.any (fun e => e.id = r'.id))
          = rs.filter (fun r' => ¬ acc.any (fun e => e.id = r'.id)) := by
        rw [List.filter_cons_of_neg]
        simpa using hmem
      rw [hfilter, hfilterr, List.map_map]
      congr 1
      apply List.map_congr_left
      intro e he
      simp only [Function.comp]
      by_cases hid : e.id = r.id
      · have hfind : (r :: rs).find? (fun r' => r'.id = e.id) = some r := by
          rw [List.find?_cons_of_pos]
          simp [hid]
        have hfindrs : rs.find? (fun r' => r'.id = (updateEntryWithKeyword e r).id)
            = none := by
          rw [List.find?_eq_none]
          intro r' hr'
          simp only [updateEntryWithKeyword, decide_eq_true_eq]
          intro hcontra
          apply hknodup.1
          rw [← hid, ← hcontra]
          exact List.mem_map_of_mem (fun x => x.id) hr'
        simp only [if_pos hid, hfindrs, hfind]
      · have hfind : (r :: rs).find? (fun r' => r'.id = e.id)
            = rs.find? (fun r' => r'.id = e.id) := by
          rw [List.find?_cons_of_neg]
          simp only [decide_eq_true_eq]
          exact fun h => hid h.symm
        simp only [if_neg hid, hfind]
    · rw [insertKeyword_neg acc r hmem]
      have haccnodup' : ((acc ++ [entryOfKeyword r]).map (fun e => e.id)).Nodup := by
        rw [List.map_append]
        simp only [List.map_cons, List.map_nil, entryOfKeyword]
        rw [List.nodup_append]
        refine ⟨haccnodup, List.nodup_singleton _, ?_⟩
        intro i hi
        simp only [List.mem_singleton]
        rcases List.mem_map.mp hi with ⟨e, he, rfl⟩
        intro hcontra
        rw [List.any_eq_true] at hmem
        exact hmem ⟨e, he, by simp [hcontra]⟩
      rw [ih _ haccnodup' hknodup.2]
      have hmap : (acc ++ [entryOfKeyword r]).map (fun e =>
            match rs.find? (fun r' => r'.id = e.id) with
            | none => e
            | some r' => updateEntryWithKeyword e r')
          = acc.map (fun e =>
              match (r :: rs).find? (fun r' => r'.id = e.id) with
              | none => e
              | some r' => updateEntryWithKeyword e r')
            ++ [entryOfKeyword r] := by
        rw [List.map_append]
        congr 1
        · apply List.map_congr_left
          intro e he
          have hstep : (r :: rs).find? (fun r' => r'.id = e.id)
              = rs.find? (fun r' => r'.id = e.id) := by
            rw [List.find?_cons_of_neg]
            simp only [decide_eq_true_eq]
            intro hcontra
            rw [List.any_eq_true] at hmem
            exact hmem ⟨e, he, by simp [hcontra]⟩
          simp only [hstep]
        · simp only [List.map_cons, List.map_nil]
          have hnone : rs.find? (fun r' => r'.id = (entryOfKeyword r).id) = none := by
            rw [List.find?_eq_none]
            intro r' hr'
            simp only [entryOfKeyword, decide_eq_true_eq]
            intro hcontra
            apply hknodup.1
            rw [← hcontra]
            exact List.mem_map_of_mem (fun x => x.id) hr'
          simp only [hnone]
      rw [hmap]
      have hfilter : (r :: rs).filter (fun r' => ¬ acc.any (fun e => e.id = r'.id))
          = r :: rs.filter (fun r' => ¬ acc.any (fun e => e.id = r'.id)) := by
        rw [List.filter_cons_of_pos]
        simpa using hmem
      have hfilter2 : rs.filter (fun r' => ¬ (acc ++ [entryOfKeyword r]).any
            (fun e => e.id = r'.id))
          = rs.filter (fun r' => ¬ acc.any (fun e => e.id = r'.id)) := by
        apply List.filter_congr
        intro r' hr'
        have hsingle : ([entryOfKeyword r].any (fun e => e.id = r'.id)) = false := by
          simp only [List.any_cons, List.any_nil, Bool.or_false, entryOfKeyword,
            decide_eq_false_iff_not]
          intro hcontra
          apply hknodup.1
          rw [hcontra]
          exact List.mem_map_of_mem (fun x => x.id) hr'
        rw [List.any_append, hsingle, Bool.or_false]
      rw [hfilter, hfilter2, List.map_cons]
      simp

/-- Characterization of the `byId` map for inputs with pairwise-distinct ids:
one entry per vector result carrying the keyword-side lookup of the same id,
followed by the keyword results whose id is absent on the vector side, in
input order. -/
theorem buildById_eq (v : List HybridVectorResult) (k : List HybridKeywordResult)
    (hv : (v.map (fun r => r.id)).Nodup) (hk : (k.map (fun r => r.id)).Nodup) :
    buildById v k
      = v.map (fun rv => mergedEntryOfVector rv (k.find? (fun rk => rk.id = rv.id)))
        ++ (k.filter (fun rk => ¬ v.any (fun rv => rv.id = rk.id))).map entryOfKeyword := by
  unfold buildById
  rw [foldl_insertVector_eq_append v [] (by simp) hv, List.nil_append]
  have hidmap : (v.map entryOfVector).map (fun e => e.id) = v.map (fun r => r.id) := by
    rw [List.map_map]
    apply List.map_congr_left
    intro rv _
    simp [entryOfVector, Function.comp]
  rw [foldl_insertKeyword_spec k (v.map entryOfVector) (by rw [hidmap]; exact hv) hk]
  congr 1
  · rw [List.map_map]
    apply List.map_congr_left
    intro rv _
    show (match k.find? (fun rk => decide (rk.id = rv.id)) with
          | none => entryOfVector rv
          | some r => updateEntryWithKeyword (entryOfVector rv) r)
        = mergedEntryOfVector rv (k.find? (fun rk => decide (rk.id = rv.id)))
    cases k.find? (fun rk => decide (rk.id = rv.id)) <;> rfl
  · congr 1
    apply List.filter_congr
    intro rk _
    have hany : ∀ l : List HybridVectorResult,
        ((l.map entryOfVector).any (fun e => e.id = rk.id))
          = l.any (fun rv => rv.id = rk.id) := by
      intro l
      induction l with
      | nil => rfl
      | cons x xs ih => simp only [List.map_cons, List.any_cons, ih, entryOfVector]
    rw [hany v]

/-- The id sequence of the `byId` map: vector ids first, then the keyword-only
ids, each in input order. -/
theorem buildById_ids (v : List HybridVectorResult) (k : List HybridKeywordResult)
    (hv : (v.map (fun r => r.id)).Nodup) (hk : (k.map (fun r => r.id)).Nodup) :
    (buildById v k).map (fun e => e.id)
      = v.map (fun r => r.id)
        ++ (k.filter (fun rk => ¬ v.any (fun rv => rv.id = rk.id))).map
            (fun r => r.id) := by
  rw [buildById_eq v k hv hk, List.map_append, List.map_map, List.map_map]
  congr 1
  · apply List.map_congr_left
    intro rv _
    simp only [Function.comp]
    cases hf : k.find? (fun rk => rk.id = rv.id) <;>
      simp [mergedEntryOfVector, entryOfVector, updateEntryWithKeyword, hf]

theorem buildById_ids_nodup (v : List HybridVectorResult)
    (k : List HybridKeywordResult)
    (hv : (v.map (fun r => r.id)).Nodup) (hk : (k.map (fun r => r.id)).Nodup) :
    ((buildById v k).map (fun e => e.id)).Nodup := by
  rw [buildById_ids v k hv hk, List.nodup_append]
  refine ⟨hv, hk.sublist ((List.filter_sublist k).map (fun r => r.id)), ?_⟩
  intro a hav hakf
  rcases List.mem_map.mp hakf with ⟨rk, hrk, rfl⟩
  rcases List.mem_filter.mp hrk with ⟨_, hpred⟩
  simp only [decide_eq_true_eq] at hpred
  apply hpred
  rcases List.mem_map.mp hav with ⟨rv, hrv, hid⟩
  exact List.any_eq_true.mpr ⟨rv, hrv, by simp [hid]⟩

theorem buildById_mem_ids (v : List HybridVectorResult)
    (k : List HybridKeywordResult)
    (hv : (v.map (fun r => r.id)).Nodup) (hk : (k.map (fun r => r.id)).Nodup)
    (i : String) :
    i ∈ (buildById v k).map (fun e => e.id)
      ↔ i ∈ v.map (fun r => r.id) ∨ i ∈ k.map (fun r => r.id) := by
  rw [buildById_ids v k hv hk, List.mem_append]
  constructor
  · rintro (h | h)
    · exact Or.inl h
    · rcases List.mem_map.mp h with ⟨rk, hrk, rfl⟩
      exact Or.inr (List.mem_map_of_mem _ (List.mem_of_mem_filter hrk))
  · rintro (h | h)
    · exact Or.inl h
    · by_cases hin : i ∈ v.map (fun r => r.id)
      · exact Or.inl hin
      · right
        rcases List.mem_map.mp h with ⟨rk, hrk, rfl⟩
        apply List.mem_map_of_mem
        apply List.mem_filter.mpr
        refine ⟨hrk, ?_⟩
        simp only [decide_eq_true_eq]
        intro hany
        rcases List.any_eq_true.mp hany with ⟨rv, hrv, hid⟩
        simp only [decide_eq_true_eq] at hid
        exact hin (hid ▸ List.mem_map_of_mem (fun r => r.id) hrv)

/-- The projection of a `byId` entry to a final merged record with the
weighted-sum score. -/
def scoredOfEntry (vw tw : ℚ) (e : MergedEntry) : HybridMerged :=
  ⟨e.path, e.startLine, e.endLine, vw * e.vectorScore + tw * e.textScore,
    e.snippet, e.source⟩

/-- With the dynamic threshold disabled (or omitted), `mergeHybridResults` is
exactly the stable descending sort of the scored `byId` entries. -/
theorem mergeHybridResults_disabled (v : List HybridVectorResult)
    (k : List HybridKeywordResult) (vw tw : ℚ) (dyn : Option Bool)
    (hdyn : dyn = none ∨ dyn = some false) :
    mergeHybridResults v k vw tw dyn
      = stableSortDesc (fun r => r.score) ((buildById v k).map (scoredOfEntry vw tw)) := by
  rcases hdyn with rfl | rfl <;> rfl

/-- **C2.** For inputs with pairwise-distinct ids on each side and the dynamic
threshold disabled or omitted, `mergeHybridResults` produces exactly one entry
per distinct chunk id across the two inputs; each entry's score is
`vectorWeight × vectorScore + textWeight × textScore` with an absent side
contributing `0` (the `byId` map pairs every vector result with the keyword
lookup of its id and appends keyword-only results); the output is sorted by
descending score; and ties preserve insertion order (vector entries first,
then keyword-only entries, each in input order). -/
theorem mergeHybridResults_spec (v : List HybridVectorResult)
    (k : List HybridKeywordResult) (vw tw : ℚ) (dyn : Option Bool)
    (hv : (v.map (fun r => r.id)).Nodup) (hk : (k.map (fun r => r.id)).Nodup)
    (hdyn : dyn = none ∨ dyn = some false) :
    ((buildById v k).map (fun e => e.id)).Nodup
    ∧ (∀ i : String, i ∈ (buildById v k).map (fun e => e.id)
        ↔ i ∈ v.map (fun r => r.id) ∨ i ∈ k.map (fun r => r.id))
    ∧ (mergeHybridResults v k vw tw dyn).length = (buildById v k).length
    ∧ buildById v k
        = v.map (fun rv => mergedEntryOfVector rv (k.find? (fun rk => rk.id = rv.id)))
          ++ (k.filter (fun rk => ¬ v.any (fun rv => rv.id = rk.id))).map entryOfKeyword
    ∧ (∀ m ∈ mergeHybridResults v k vw tw dyn,
        ∃ e ∈ buildById v k, m = scoredOfEntry vw tw e)
    ∧ (mergeHybridResults v k vw tw dyn).Pairwise (fun a b => b.score ≤ a.score)
    ∧ (mergeHybridResults v k vw tw dyn).Perm
        ((buildById v k).map (scoredOfEntry vw tw))
    ∧ (∀ q : ℚ, (mergeHybridResults v k vw tw dyn).filter (fun m => m.score = q)
        = ((buildById v k).map (scoredOfEntry vw tw)).filter (fun m => m.score = q)) := by
  have hmerge := mergeHybridResults_disabled v k vw tw dyn hdyn
  refine ⟨buildById_ids_nodup v k hv hk, buildById_mem_ids v k hv hk, ?_,
    buildById_eq v k hv hk, ?_, ?_, ?_, ?_⟩
  · rw [hmerge, (stableSortDesc_perm _ _).length_eq, List.length_map]
  · intro m hm
    rw [hmerge] at hm
    have hm' := (stableSortDesc_perm (fun r : HybridMerged => r.score) _).mem_iff.mp hm
    rcases List.mem_map.mp hm' with ⟨e, he, rfl⟩
    exact ⟨e, he, rfl⟩
  · rw [hmerge]
    exact stableSortDesc_sorted _ _
  · rw [hmerge]
    exact stableSortDesc_perm _ _
  · intro q
    rw [hmerge]
    exact stableSortDesc_filter_key (fun r : HybridMerged => r.score) _ q

/-- Concrete vector results (the spec's hybrid-merge scenario). -/
def vectorExample : List HybridVectorResult :=
  [⟨"a", "a.ts", 1, 2, "memory", "sa", 85/100⟩,
   ⟨"b", "b.ts", 1, 2, "memory", "sb", 6/10⟩,
   ⟨"c", "c.ts", 1, 2, "memory", "sc", 4/10⟩,
   ⟨"d", "d.ts", 1, 2, "memory", "sd", 2/10⟩]

/-- Concrete keyword results (the spec's hybrid-merge scenario). -/
def keywordExample : List HybridKeywordResult :=
  [⟨"a", "a.ts", 1, 2, "memory", "ka", 7/10⟩,
   ⟨"b", "b.ts", 1, 2, "memory", "kb", 3/10⟩,
   ⟨"e", "e.ts", 1, 2, "memory", "ke", 5/10⟩]

/-- Witness for C2 at the spec's hybrid-merge scenario inputs. -/
theorem mergeHybridResults_spec_witness :
    (mergeHybridResults vectorExample keywordExample (7/10) (3/10) none).Pairwise
      (fun a b => b.score ≤ a.score) :=
  (mergeHybridResults_spec vectorExample keywordExample (7/10) (3/10) none
    (by decide) (by decide) (Or.inl rfl)).2.2.2.2.2.1

/-! ## Vector search with recency penalty (`manager-search.ts`, `searchVector`)

The SQL store, the cosine-similarity helper, the float-finiteness test and the
UTF-16-safe snippet truncator live outside `src/`; they are abstracted as
explicit row lists and oracle functions.  Everything inside `searchVector`
itself is translated from the source. -/

structure RecencyConfig where
  enabled : Bool
  lambda : ℚ
  windowDays : ℚ

/-- A row returned by the accelerated vector-index query. -/
structure VecIndexRow where
  id : String
  path : String
  startLine : ℤ
  endLine : ℤ
  text : String
  source : String
  dist : ℚ
  updatedAt : Option ℚ

/-- A chunk row enumerated by `listChunks` in the fallback branch. -/
structure ChunkRow where
  id : String
  path : String
  startLine : ℤ
  endLine : ℤ
  text : String
  embedding : List ℚ
  source : String
  updatedAt : Option ℚ

structure SearchRowResult where
  id : String
  path : String
  startLine : ℤ
  endLine : ℤ
  score : ℚ
  snippet : String
  source : String

/-- `recency?.enabled` (optional chaining on an optional config). -/
def recencyEnabled (recency : Option RecencyConfig) : Bool :=
  match recency with
  | none => false
  | some c => c.enabled

/-- `searchVector`: `rows` is the accelerated-index result set (used when
`ensureVectorReady` resolved `true`, i.e. `accelReady`), `chunks` the fallback
candidate set, `cosine` the cosine-similarity oracle, `isFin` the
float-finiteness oracle, and `trunc` the snippet truncator. -/
def searchVector (queryVec : List ℚ) (limit : ℤ) (accelReady : Bool)
    (rows : List VecIndexRow) (chunks : List ChunkRow)
    (cosine : List ℚ → List ℚ → ℚ) (isFin : ℚ → Bool) (trunc : String → String)
    (recency : Option RecencyConfig) (now : ℚ) : List SearchRowResult :=
  if queryVec.length = 0 ∨ limit ≤ 0 then []
  else if accelReady then
    let results := rows.map (fun row =>
      let score0 := 1 - row.dist
      let score :=
        if recencyEnabled recency then
          max 0 (score0 - calculateRecencyPenalty row.updatedAt now
            ((recency.map (fun c => c.lambda)).getD 0)
            ((recency.map (fun c => c.windowDays)).getD 0))
        else score0
      (⟨row.id, row.path, row.startLine, row.endLine, score,
        trunc row.text, row.source⟩ : SearchRowResult))
    if recencyEnabled recency then
      stableSortDesc (fun r => r.score) results
    else results
  else
    let scored := (chunks.map (fun chunk =>
      let score0 := cosine queryVec chunk.embedding
      let score :=
        if recencyEnabled recency then
          max 0 (score0 - calculateRecencyPenalty chunk.updatedAt now
            ((recency.map (fun c => c.lambda)).getD 0)
            ((recency.map (fun c => c.windowDays)).getD 0))
        else score0
      (chunk, score))).filter (fun entry => isFin entry.2)
    ((stableSortDesc (fun entry => entry.2) scored).take limit.toNat).map
      (fun entry =>
        (⟨entry.1.id, entry.1.path, entry.1.startLine, entry.1.endLine, entry.2,
          trunc entry.1.text, entry.1.source⟩ : SearchRowResult))

theorem searchVector_guard_nil (queryVec : List ℚ) (limit : ℤ) (accelReady : Bool)
    (rows : List VecIndexRow) (chunks : List ChunkRow)
    (cosine : List ℚ → List ℚ → ℚ) (isFin : ℚ → Bool) (trunc : String → String)
    (recency : Option RecencyConfig) (now : ℚ)
    (h : queryVec.length = 0 ∨ limit ≤ 0) :
    searchVector queryVec limit accelReady rows chunks cosine isFin trunc recency now
      = [] := by
  unfold searchVector
  rw [if_pos h]

/-- Accelerated branch with recency enabled: penalised, clamped and re-sorted. -/
theorem searchVector_accel_enabled (queryVec : List ℚ) (limit : ℤ)
    (rows : List VecIndexRow) (chunks : List ChunkRow)
    (cosine : List ℚ → List ℚ → ℚ) (isFin : ℚ → Bool) (trunc : String → String)
    (cfg : RecencyConfig) (now : ℚ)
    (h : ¬ (queryVec.length = 0 ∨ limit ≤ 0)) (hen : cfg.enabled = true) :
    searchVector queryVec limit true rows chunks cosine isFin trunc (some cfg) now
      = stableSortDesc (fun r => r.score) (rows.map (fun row =>
          (⟨row.id, row.path, row.startLine, row.endLine,
            max 0 ((1 - row.dist)
              - calculateRecencyPenalty row.updatedAt now cfg.lambda cfg.windowDays),
            trunc row.text, row.source⟩ : SearchRowResult))) := by
  unfold searchVector
  rw [if_neg h]
  simp [recencyEnabled, hen]

/-- Fallback branch with recency enabled: penalised, clamped, filtered by the
finiteness oracle, sorted and truncated to `limit`. -/
theorem searchVector_fallback_enabled (queryVec : List ℚ) (limit : ℤ)
    (rows : List VecIndexRow) (chunks : List ChunkRow)
    (cosine : List ℚ → List ℚ → ℚ) (isFin : ℚ → Bool) (trunc : String → String)
    (cfg : RecencyConfig) (now : ℚ)
    (h : ¬ (queryVec.length = 0 ∨ limit ≤ 0)) (hen : cfg.enabled = true) :
    searchVector queryVec limit false rows chunks cosine isFin trunc (some cfg) now
      = ((stableSortDesc (fun entry => entry.2)
            ((chunks.map (fun chunk =>
              (chunk, max 0 (cosine queryVec chunk.embedding
                - calculateRecencyPenalty chunk.updatedAt now cfg.lambda
                    cfg.windowDays)))).filter
              (fun entry => isFin entry.2))).take limit.toNat).map
          (fun entry =>
            (⟨entry.1.id, entry.1.path, entry.1.startLine, entry.1.endLine, entry.2,
              trunc entry.1.text, entry.1.source⟩ : SearchRowResult)) := by
  unfold searchVector
  rw [if_neg h]
  simp [recencyEnabled, hen]

/-- **C6.** For every `searchVector` call with `recency.enabled = true`, every
returned score has had the recency penalty subtracted and then been clamped to
`≥ 0` — in both the accelerated vector-index branch and the fallback
cosine-similarity branch — and the results are sorted in descending score
order after the penalty is applied. -/
theorem searchVector_recency_spec (queryVec : List ℚ) (limit : ℤ)
    (accelReady : Bool) (rows : List VecIndexRow) (chunks : List ChunkRow)
    (cosine : List ℚ → List ℚ → ℚ) (isFin : ℚ → Bool) (trunc : String → String)
    (cfg : RecencyConfig) (now : ℚ) (hen : cfg.enabled = true) :
    (∀ r ∈ searchVector queryVec limit accelReady rows chunks cosine isFin trunc
        (some cfg) now, 0 ≤ r.score)
    ∧ (searchVector queryVec limit accelReady rows chunks cosine isFin trunc
        (some cfg) now).Pairwise (fun a b => b.score ≤ a.score)
    ∧ (accelReady = true →
        ∀ r ∈ searchVector queryVec limit accelReady rows chunks cosine isFin trunc
            (some cfg) now,
          ∃ row ∈ rows, r.score = max 0 ((1 - row.dist)
            - calculateRecencyPenalty row.updatedAt now cfg.lambda cfg.windowDays))
    ∧ (accelReady = false →
        ∀ r ∈ searchVector queryVec limit accelReady rows chunks cosine isFin trunc
            (some cfg) now,
          ∃ chunk ∈ chunks, r.score = max 0 (cosine queryVec chunk.embedding
            - calculateRecencyPenalty chunk.updatedAt now cfg.lambda cfg.windowDays)) := by
  by_cases hguard : queryVec.length = 0 ∨ limit ≤ 0
  · rw [searchVector_guard_nil queryVec limit accelReady rows chunks cosine isFin
      trunc (some cfg) now hguard]
    exact ⟨by simp, List.Pairwise.nil, by simp, by simp⟩
  · cases accelReady with
    | true =>
      rw [searchVector_accel_enabled queryVec limit rows chunks cosine isFin trunc
        cfg now hguard hen]
      have hmem : ∀ r ∈ stableSortDesc (fun r : SearchRowResult => r.score)
          (rows.map (fun row =>
            (⟨row.id, row.path, row.startLine, row.endLine,
              max 0 ((1 - row.dist)
                - calculateRecencyPenalty row.updatedAt now cfg.lambda cfg.windowDays),
              trunc row.text, row.source⟩ : SearchRowResult))),
          ∃ row ∈ rows, r.score = max 0 ((1 - row.dist)
            - calculateRecencyPenalty row.updatedAt now cfg.lambda cfg.windowDays) := by
        intro r hr
        have := (stableSortDesc_perm (fun r : SearchRowResult => r.score) _).mem_iff.mp hr
        rcases List.mem_map.mp this with ⟨row, hrow, rfl⟩
        exact ⟨row, hrow, rfl⟩
      refine ⟨?_, stableSortDesc_sorted _ _, fun _ => hmem, by simp⟩
      intro r hr
      rcases hmem r hr with ⟨row, _, hscore⟩
      rw [hscore]
      exact le_max_left 0 _
    | false =>
      rw [searchVector_fallback_enabled queryVec limit rows chunks cosine isFin trunc
        cfg now hguard hen]
      have hmem : ∀ r ∈ ((stableSortDesc (fun entry : ChunkRow × ℚ => entry.2)
            ((chunks.map (fun chunk =>
              (chunk, max 0 (cosine queryVec chunk.embedding
                - calculateRecencyPenalty chunk.updatedAt now cfg.lambda
                    cfg.windowDays)))).filter
              (fun entry => isFin entry.2))).take limit.toNat).map
          (fun entry =>
            (⟨entry.1.id, entry.1.path, entry.1.startLine, entry.1.endLine, entry.2,
              trunc entry.1.text, entry.1.source⟩ : SearchRowResult)),
          ∃ chunk ∈ chunks, r.score = max 0 (cosine queryVec chunk.embedding
            - calculateRecencyPenalty chunk.updatedAt now cfg.lambda cfg.windowDays) := by
        intro r hr
        rcases List.mem_map.mp hr with ⟨entry, hentry, rfl⟩
        have hsorted := (List.take_sublist limit.toNat _).mem hentry
        have hfil := (stableSortDesc_perm (fun entry : ChunkRow × ℚ => entry.2)
          _).mem_iff.mp hsorted
        have hmapmem := List.mem_of_mem_filter hfil
        rcases List.mem_map.mp hmapmem with ⟨chunk, hchunk, hc⟩
        refine ⟨chunk, hchunk, ?_⟩
        rw [← hc]
      refine ⟨?_, ?_, by simp, fun _ => hmem⟩
      · intro r hr
        rcases hmem r hr with ⟨chunk, _, hscore⟩
        rw [hscore]
        exact le_max_left 0 _
      · -- take of a sorted list is sorted; the map preserves pairwise order
        exact List.Pairwise.map _ (fun {a b} hab => hab)
          (List.Pairwise.sublist (List.take_sublist _ _)
            (stableSortDesc_sorted (fun entry : ChunkRow × ℚ => entry.2) _))

/-- Witness for C6: a one-row accelerated search with recency enabled. -/
theorem searchVector_recency_spec_witness :
    (∀ r ∈ searchVector [1] 5 true
        [⟨"c1", "p", 1, 2, "t", "memory", 1/10, some 0⟩] []
        (fun _ _ => 0) (fun _ => true) (fun s => s)
        (some ⟨true, 8/100, 14⟩) 1700000000000, 0 ≤ r.score)
    ∧ (searchVector [1] 5 true
        [⟨"c1", "p", 1, 2, "t", "memory", 1/10, some 0⟩] []
        (fun _ _ => 0) (fun _ => true) (fun s => s)
        (some ⟨true, 8/100, 14⟩) 1700000000000).Pairwise
        (fun a b => b.score ≤ a.score) :=
  ⟨(searchVector_recency_spec [1] 5 true
      [⟨"c1", "p", 1, 2, "t", "memory", 1/10, some 0⟩] []
      (fun _ _ => 0) (fun _ => true) (fun s => s)
      ⟨true, 8/100, 14⟩ 1700000000000 rfl).1,
    (searchVector_recency_spec [1] 5 true
      [⟨"c1", "p", 1, 2, "t", "memory", 1/10, some 0⟩] []
      (fun _ _ => 0) (fun _ => true) (fun s => s)
      ⟨true, 8/100, 14⟩ 1700000000000 rfl).2.1⟩

/-! ## String utilities (compaction safeguard, `part_000`)

JavaScript strings are modelled as `List Char`.  `String.prototype.includes`
is substring containment; `toLowerCase` is `Char.toLower` (ASCII);
`trim` strips whitespace from both ends. -/

/-- `needle` occurs as a contiguous substring of `hay`
(JavaScript `hay.includes(needle)`). -/
def containsSub (needle : List Char) : List Char → Bool
  | [] => needle.isEmpty
  | c :: rest => needle.isPrefixOf (c :: rest) || containsSub needle rest

theorem containsSub_iff (needle hay : List Char) :
    containsSub needle hay = true ↔ needle <:+: hay := by
  induction hay with
  | nil =>
    simp only [containsSub, List.isEmpty_iff]
    constructor
    · intro h; rw [h]
    · intro h; exact List.eq_nil_of_infix_nil h
  | cons c rest ih =>
    simp only [containsSub, Bool.or_eq_true, List.isPrefixOf_iff_prefix, ih,
      List.infix_cons_iff]

/-- Characters stripped from the front of an extracted identifier
(`/^[("'`[{<]+/`). -/
def leadWrapChars : List Char := ['(', '"', '\'', '\x60', '[', '\x7b', '<']

/-- Characters stripped from the back of an extracted identifier
(`/[)\]"'`,;:.!?<>]+$/`). -/
def trailWrapChars : List Char :=
  [')', ']', '"', '\'', '\x60', ',', ';', ':', '.', '!', '?', '<', '>']

def isLeadWrap (c : Char) : Bool := leadWrapChars.contains c

def isTrailWrap (c : Char) : Bool := trailWrapChars.contains c

/-- `sanitizeExtractedIdentifier`: `trim()`, strip leading wrapping
punctuation, then strip trailing wrapping punctuation. -/
def sanitizeExtractedIdentifier (l : List Char) : List Char :=
  (((l.dropWhile Char.isWhitespace).rdropWhile Char.isWhitespace).dropWhile
      isLeadWrap).rdropWhile isTrailWrap

/-! ## Quality audit (`auditSummaryQuality`, `hasAskOverlap`) -/

/-- The five required summary section headings. -/
def REQUIRED_SUMMARY_SECTIONS : List (List Char) :=
  ["## Decisions".data, "## Open TODOs".data, "## Constraints/Rules".data,
   "## Pending user asks".data, "## Exact identifiers".data]

/-- `[a-z0-9]`, the token alphabet of `latestAsk.toLowerCase().split(/[^a-z0-9]+/g)`. -/
def lowerAlnum (c : Char) : Bool :=
  ('a' ≤ c && c ≤ 'z') || ('0' ≤ c && c ≤ '9')

/-- Maximal runs of characters satisfying `p` (the non-empty pieces of a split
on the complement). -/
def splitRuns (p : Char → Bool) : List Char → List (List Char)
  | [] => []
  | c :: rest =>
    if p c then (c :: rest.takeWhile p) :: splitRuns p (rest.dropWhile p)
    else splitRuns p rest
termination_by l => l.length
decreasing_by
  · have h := List.Sublist.length_le (List.dropWhile_sublist (p := p) (l := rest))
    simp only [List.length_cons]
    omega
  · simp only [List.length_cons]
    omega

/-- The lowercase alphanumeric tokens of length ≥ 5 of an ask (before the
`slice(0, 8)` cap). -/
def askTokens (ask : List Char) : List (List Char) :=
  (splitRuns lowerAlnum (ask.map Char.toLower)).filter (fun t => 5 ≤ t.length)

/-- `hasAskOverlap(summary, latestAsk)`. -/
def hasAskOverlap (summary : List Char) (latestAsk : Option (List Char)) : Bool :=
  match latestAsk with
  | none => true
  | some ask =>
    let normalizedSummary := summary.map Char.toLower
    let tokens := (askTokens ask).take 8
    if tokens.isEmpty then true
    else tokens.any (fun t => containsSub t normalizedSummary)

structure AuditResult where
  ok : Bool
  reasons : List (List Char)

/-- `auditSummaryQuality({summary, identifiers, latestAsk})`: collect reasons
(missing sections in order, missing identifiers, unreflected ask);
`ok = reasons.length === 0`. -/
def auditSummaryQuality (summary : List Char) (identifiers : List (List Char))
    (latestAsk : Option (List Char)) : AuditResult :=
  let sectionReasons := (REQUIRED_SUMMARY_SECTIONS.filter
      (fun s => ¬ containsSub s summary)).map (fun s => "missing_section:".data ++ s)
  let missingIdentifiers := identifiers.filter (fun i => ¬ containsSub i summary)
  let identifierReasons :=
    if missingIdentifiers.isEmpty then []
    else ["missing_identifiers:".data
            ++ List.intercalate ",".data (missingIdentifiers.take 3)]
  let askReasons :=
    if hasAskOverlap summary latestAsk then []
    else ["latest_user_ask_not_reflected".data]
  let reasons := sectionReasons ++ identifierReasons ++ askReasons
  ⟨reasons.isEmpty, reasons⟩

theorem if_nil_singleton_iff {P : Prop} [Decidable P] (x : List Char) :
    ((if P then ([] : List (List Char)) else [x]) = []) ↔ P := by
  split_ifs with h
  · simp [h]
  · simp [h]

theorem hasAskOverlap_true_iff (summary : List Char) (latestAsk : Option (List Char)) :
    hasAskOverlap summary latestAsk = true
      ↔ ∀ ask, latestAsk = some ask →
          askTokens ask = []
          ∨ ∃ t ∈ (askTokens ask).take 8, t <:+: summary.map Char.toLower := by
  cases latestAsk with
  | none => simp [hasAskOverlap]
  | some ask =>
    simp only [hasAskOverlap, Option.some.injEq]
    constructor
    · intro h ask' hask'
      subst hask'
      by_cases hemp : ((askTokens ask).take 8).isEmpty = true
      · left
        rw [List.isEmpty_iff, List.take_eq_nil_iff] at hemp
        rcases hemp with h8 | hnil
        · exact absurd h8 (by norm_num)
        · exact hnil
      · right
        rw [if_neg hemp] at h
        rcases List.any_eq_true.mp h with ⟨t, ht, hc⟩
        exact ⟨t, ht, (containsSub_iff _ _).mp hc⟩
    · intro h
      rcases h ask rfl with htok | ⟨t, ht, hinf⟩
      · rw [if_pos]
        simp [htok]
      · by_cases hemp : ((askTokens ask).take 8).isEmpty = true
        · rw [if_pos hemp]
        · rw [if_neg hemp]
          exact List.any_eq_true.mpr ⟨t, ht, (containsSub_iff _ _).mpr hinf⟩

/-- **C7.** `auditSummaryQuality` returns `ok = true` iff every required
section heading occurs as a substring of the summary, every seed identifier
occurs literally as a substring, and either `latestAsk` is null, or it has no
lowercase alphanumeric token of length ≥ 5, or at least one of the first 8
such tokens occurs in the lowercased summary. -/
theorem auditSummaryQuality_ok_iff (summary : List Char)
    (identifiers : List (List Char)) (latestAsk : Option (List Char)) :
    (auditSummaryQuality summary identifiers latestAsk).ok = true
      ↔ (∀ s ∈ REQUIRED_SUMMARY_SECTIONS, s <:+: summary)
        ∧ (∀ i ∈ identifiers, i <:+: summary)
        ∧ (∀ ask, latestAsk = some ask →
            askTokens ask = []
            ∨ ∃ t ∈ (askTokens ask).take 8, t <:+: summary.map Char.toLower) := by
  unfold auditSummaryQuality
  simp only [List.isEmpty_iff, List.append_eq_nil, List.map_eq_nil_iff,
    if_nil_singleton_iff, List.filter_eq_nil_iff, decide_eq_true_eq,
    Bool.not_eq_true, Bool.not_eq_true', decide_eq_false_iff_not, not_not,
    containsSub_iff]
  rw [hasAskOverlap_true_iff, and_assoc]

/-! ## Opaque-identifier extraction (`extractOpaqueIdentifiers`)

The source matches the global regex
`/([A-Fa-f0-9]{8,}|https?:\/\/\S+|\/[-\w./]+|[A-Za-z]:\\[\w\\.-]+|[A-Za-z0-9._-]+\.[-A-Za-z0-9._/]+:\d{1,5}|\b\d{6,}\b)/g`.
The scanner below reproduces JavaScript regex semantics: at each position the
six alternatives are tried in order (first match wins); each alternative's
greedy/backtracking behaviour is resolved into an explicit match length; on
success scanning resumes after the match, on failure at the next position. -/

/-- `[A-Fa-f0-9]`. -/
def isHexDigit (c : Char) : Bool :=
  c.isDigit || ('A' ≤ c && c ≤ 'F') || ('a' ≤ c && c ≤ 'f')

/-- JavaScript `\w`, i.e. `[A-Za-z0-9_]`. -/
def isWordChar (c : Char) : Bool := c.isAlpha || c.isDigit || c == '_'

/-- `[-\w./]` (POSIX-path body characters). -/
def isPathChar (c : Char) : Bool := isWordChar c || c == '.' || c == '/' || c == '-'

/-- `[\w\\.-]` (Windows-path body characters). -/
def isWinChar (c : Char) : Bool := isWordChar c || c == '\\' || c == '.' || c == '-'

/-- `[A-Za-z0-9._-]` (the host part of `host:port`). -/
def isHostChar (c : Char) : Bool :=
  c.isAlpha || c.isDigit || c == '.' || c == '_' || c == '-'

/-- `[-A-Za-z0-9._/]` (the second part of `host:port`). -/
def isHostPortChar (c : Char) : Bool := isHostChar c || c == '/'

/-- Alternative 1, `[A-Fa-f0-9]{8,}`: the maximal hex run when it has length
at least 8. -/
def altHex (s : List Char) : Option ℕ :=
  let r := (s.takeWhile isHexDigit).length
  if 8 ≤ r then some r else none

/-- The `://\S+` tail of alternative 2. -/
def altUrlCore (t : List Char) : Option ℕ :=
  match t with
  | ':' :: '/' :: '/' :: rest =>
    let n := (rest.takeWhile (fun c => ¬ c.isWhitespace)).length
    if 1 ≤ n then some (3 + n) else none
  | _ => none

/-- Alternative 2, `https?:\/\/\S+` (greedy optional `s`, then at least one
non-whitespace character). -/
def altUrl (s : List Char) : Option ℕ :=
  match s with
  | 'h' :: 't' :: 't' :: 'p' :: rest =>
    match rest with
    | 's' :: rest2 =>
      match altUrlCore rest2 with
      | some n => some (5 + n)
      | none => (altUrlCore rest).map (fun n => 4 + n)
    | _ => (altUrlCore rest).map (fun n => 4 + n)
  | _ => none

/-- Alternative 3, `\/[-\w./]+`. -/
def altPath (s : List Char) : Option ℕ :=
  match s with
  | '/' :: rest =>
    let n := (rest.takeWhile isPathChar).length
    if 1 ≤ n then some (1 + n) else none
  | _ => none

/-- Alternative 4, `[A-Za-z]:\\[\w\\.-]+`. -/
def altWin (s : List Char) : Option ℕ :=
  match s with
  | c :: ':' :: '\\' :: rest =>
    if c.isAlpha then
      let n := (rest.takeWhile isWinChar).length
      if 1 ≤ n then some (3 + n) else none
    else none
  | _ => none

/-- Alternative 5, `[A-Za-z0-9._-]+\.[-A-Za-z0-9._/]+:\d{1,5}`.  Backtracking
resolves as follows: with `a` the maximal host run, the `\.` must match a dot
strictly inside the run; the second run then always ends at the same position
`a + bTail` regardless of which dot is chosen (every host character is also a
host-port character), except that choosing the last position `a - 1` requires
`bTail ≥ 1`; then a literal `:` and one to five digits (greedy). -/
def altHostPort (s : List Char) : Option ℕ :=
  let a := (s.takeWhile isHostChar).length
  let bTail := ((s.drop a).takeWhile isHostPortChar).length
  let hasDot :=
    if 1 ≤ bTail then ((s.take a).drop 1).contains '.'
    else ((s.take (a - 1)).drop 1).contains '.'
  if 1 ≤ a ∧ hasDot = true then
    match s.drop (a + bTail) with
    | ':' :: rest =>
      let d := min 5 (rest.takeWhile Char.isDigit).length
      if 1 ≤ d then some (a + bTail + 1 + d) else none
    | _ => none
  else none

/-- Alternative 6, `\b\d{6,}\b`: a word boundary before (the previous
character, when any, is not a word character), a maximal digit run of length
at least 6, and a word boundary after. -/
def altBigInt (prev : Option Char) (s : List Char) : Option ℕ :=
  let wordBefore := match prev with | some c => isWordChar c | none => false
  if wordBefore then none
  else
    let r := (s.takeWhile Char.isDigit).length
    if r < 6 then none
    else
      match s.drop r with
      | [] => some r
      | c :: _ => if isWordChar c then none else some r

/-- One attempt of the regex engine at the current position: the six
alternatives in source order, first match wins. -/
def tryMatchAt (prev : Option Char) (s : List Char) : Option ℕ :=
  match altHex s with
  | some n => some n
  | none =>
  match altUrl s with
  | some n => some n
  | none =>
  match altPath s with
  | some n => some n
  | none =>
  match altWin s with
  | some n => some n
  | none =>
  match altHostPort s with
  | some n => some n
  | none => altBigInt prev s

theorem altHex_pos (s : List Char) (n : ℕ) (h : altHex s = some n) : 1 ≤ n := by
  unfold altHex at h
  dsimp only at h
  split at h
  · rename_i hr
    cases h
    omega
  · cases h

theorem altUrlCore_pos (t : List Char) (n : ℕ) (h : altUrlCore t = some n) : 1 ≤ n := by
  unfold altUrlCore at h
  dsimp only at h
  split at h
  · split at h
    · cases h; omega
    · cases h
  · cases h

theorem altUrl_pos (s : List Char) (n : ℕ) (h : altUrl s = some n) : 1 ≤ n := by
  unfold altUrl at h
  split at h
  · rename_i rest
    split at h
    · rename_i rest2
      split at h
      · cases h; omega
      · rcases Option.map_eq_some'.mp h with ⟨m, _, rfl⟩
        omega
    · rcases Option.map_eq_some'.mp h with ⟨m, _, rfl⟩
      omega
  · cases h

theorem altPath_pos (s : List Char) (n : ℕ) (h : altPath s = some n) : 1 ≤ n := by
  unfold altPath at h
  dsimp only at h
  split at h
  · split at h
    · cases h; omega
    · cases h
  · cases h

theorem altWin_pos (s : List Char) (n : ℕ) (h : altWin s = some n) : 1 ≤ n := by
  unfold altWin at h
  dsimp only at h
  split at h
  · split at h
    · split at h
      · cases h; omega
      · cases h
    · cases h
  · cases h

theorem altHostPort_pos (s : List Char) (n : ℕ) (h : altHostPort s = some n) :
    1 ≤ n := by
  rw [altHostPort.eq_def] at h
  by_cases hc : 1 ≤ (s.takeWhile isHostChar).length
      ∧ (if 1 ≤ ((s.drop (s.takeWhile isHostChar).length).takeWhile
            isHostPortChar).length
          then ((s.take (s.takeWhile isHostChar).length).drop 1).contains '.'
          else ((s.take ((s.takeWhile isHostChar).length - 1)).drop 1).contains '.')
          = true
  · rw [if_pos hc] at h
    split at h
    · dsimp only at h
      split at h
      · cases h
        omega
      · cases h
    · cases h
  · rw [if_neg hc] at h
    cases h

theorem altBigInt_pos (prev : Option Char) (s : List Char) (n : ℕ)
    (h : altBigInt prev s = some n) : 1 ≤ n := by
  rw [altBigInt.eq_def] at h
  dsimp only at h
  split at h
  · cases h
  · split at h
    · cases h
    · rename_i hr
      split at h
      · cases h; omega
      · split at h
        · cases h
        · cases h; omega

theorem tryMatchAt_pos (prev : Option Char) (s : List Char) (n : ℕ)
    (h : tryMatchAt prev s = some n) : 1 ≤ n := by
  unfold tryMatchAt at h
  split at h
  · rename_i h1; cases h; exact altHex_pos s n h1
  · split at h
    · rename_i h2; cases h; exact altUrl_pos s n h2
    · split at h
      · rename_i h3; cases h; exact altPath_pos s n h3
      · split at h
        · rename_i h4; cases h; exact altWin_pos s n h4
        · split at h
          · rename_i h5; cases h; exact altHostPort_pos s n h5
          · exact altBigInt_pos prev s n h

/-- The global scan: attempt a match at each position; on success record the
matched text and resume after it (the new "previous character" is the last
character of the match), on failure advance one character. -/
def scanIdents (prev : Option Char) (s : List Char) : List (List Char) :=
  match s with
  | [] => []
  | c :: rest =>
    match h : tryMatchAt prev (c :: rest) with
    | some n =>
      (c :: rest).take n :: scanIdents ((c :: rest).take n).getLast? ((c :: rest).drop n)
    | none => scanIdents (some c) rest
termination_by s.length
decreasing_by
  · have := tryMatchAt_pos prev (c :: rest) n h
    simp only [List.length_drop, List.length_cons]
    omega
  · simp only [List.length_cons]
    omega

/-- Deduplication preserving first occurrence (`new Set(...)` iteration
order). -/
def dedupKeepFirst : List (List Char) → List (List Char)
  | [] => []
  | a :: rest => a :: dedupKeepFirst (rest.filter (fun b => ¬ b = a))
termination_by l => l.length
decreasing_by
  have := List.length_filter_le (fun b => ¬ b = a) rest
  simp only [List.length_cons]
  omega

def MAX_EXTRACTED_IDENTIFIERS : ℕ := 12

/-- The sanitized match list before deduplication and capping. -/
def sanitizedCandidates (text : List Char) : List (List Char) :=
  ((scanIdents none text).map sanitizeExtractedIdentifier).filter
    (fun v => 4 ≤ v.length)

/-- `extractOpaqueIdentifiers(text)`: match, sanitize, keep length ≥ 4,
deduplicate preserving first occurrence, cap at `MAX_EXTRACTED_IDENTIFIERS`. -/
def extractOpaqueIdentifiers (text : List Char) : List (List Char) :=
  (dedupKeepFirst (sanitizedCandidates text)).take MAX_EXTRACTED_IDENTIFIERS

/-! ### Helper lemmas for the extraction claims -/

theorem take_takeWhile_length (p : Char → Bool) (l : List Char) :
    l.take ((l.takeWhile p).length) = l.takeWhile p := by
  induction l with
  | nil => rfl
  | cons c t ih =>
    by_cases h : p c
    · rw [List.takeWhile_cons_of_pos h, List.length_cons, List.take_succ_cons, ih]
    · rw [List.takeWhile_cons_of_neg h]
      rfl

theorem head?_of_prefix {l₁ l₂ : List Char} (h : l₁ <+: l₂) :
    l₁ = [] ∨ l₁.head? = l₂.head? := by
  rcases h with ⟨u, rfl⟩
  cases l₁ with
  | nil => exact Or.inl rfl
  | cons c t => exact Or.inr rfl

theorem head?_dropWhile_not (p : Char → Bool) (l : List Char) :
    ∀ c ∈ (l.dropWhile p).head?, p c = false := by
  induction l with
  | nil => intro c hc; cases hc
  | cons a t ih =>
    by_cases h : p a
    · rw [List.dropWhile_cons_of_pos h]
      exact ih
    · rw [List.dropWhile_cons_of_neg h]
      intro c hc
      cases hc
      exact Bool.eq_false_iff.mpr h

/-- Whitespace, leading-wrap and trailing-wrap characters are never hex
digits. -/
theorem hexDigit_not_special (c : Char) (h : isHexDigit c = true) :
    c.isWhitespace = false ∧ isLeadWrap c = false ∧ isTrailWrap c = false := by
  refine ⟨?_, ?_, ?_⟩
  · by_contra hws
    rw [Bool.not_eq_false] at hws
    simp only [Char.isWhitespace, Bool.or_eq_true, decide_eq_true_eq] at hws
    rcases hws with ((rfl | rfl) | rfl) | rfl <;> revert h <;> decide
  · by_contra hl
    rw [Bool.not_eq_false] at hl
    have hmem : c ∈ leadWrapChars := by simpa [isLeadWrap] using hl
    fin_cases hmem <;> revert h <;> decide
  · by_contra ht
    rw [Bool.not_eq_false] at ht
    have hmem : c ∈ trailWrapChars := by simpa [isTrailWrap] using ht
    fin_cases hmem <;> revert h <;> decide

/-- Whitespace and leading-wrap characters are never host characters. -/
theorem hostChar_not_special (c : Char) (h : isHostChar c = true) :
    c.isWhitespace = false ∧ isLeadWrap c = false := by
  refine ⟨?_, ?_⟩
  · by_contra hws
    rw [Bool.not_eq_false] at hws
    simp only [Char.isWhitespace, Bool.or_eq_true, decide_eq_true_eq] at hws
    rcases hws with ((rfl | rfl) | rfl) | rfl <;> revert h <;> decide
  · by_contra hl
    rw [Bool.not_eq_false] at hl
    have hmem : c ∈ leadWrapChars := by simpa [isLeadWrap] using hl
    fin_cases hmem <;> revert h <;> decide

theorem isDigit_isHexDigit (c : Char) (h : c.isDigit = true) : isHexDigit c = true := by
  simp [isHexDigit, h]

/-- Sanitization is the identity on lists whose head is neither whitespace nor
leading-wrap and whose last element is neither whitespace nor trailing-wrap. -/
theorem sanitize_eq_self (m : List Char)
    (hhead : ∀ c ∈ m.head?, c.isWhitespace = false ∧ isLeadWrap c = false)
    (hlast : ∀ c ∈ m.getLast?, c.isWhitespace = false ∧ isTrailWrap c = false) :
    sanitizeExtractedIdentifier m = m := by
  cases m with
  | nil => rfl
  | cons c t =>
    have hc := hhead c rfl
    have hrlast : ∀ (hl : (c :: t) ≠ []), ¬ Char.isWhitespace ((c :: t).getLast hl) = true := by
      intro hl
      have := hlast ((c :: t).getLast hl)
        (by rw [List.getLast?_eq_getLast _ hl]; rfl)
      simp [this.1]
    have htlast : ∀ (hl : (c :: t) ≠ []), ¬ isTrailWrap ((c :: t).getLast hl) = true := by
      intro hl
      have := hlast ((c :: t).getLast hl)
        (by rw [List.getLast?_eq_getLast _ hl]; rfl)
      simp [this.2]
    unfold sanitizeExtractedIdentifier
    rw [List.dropWhile_cons_of_neg (by simp [hc.1]),
      List.rdropWhile_eq_self_iff.mpr hrlast,
      List.dropWhile_cons_of_neg (by simp [hc.2]),
      List.rdropWhile_eq_self_iff.mpr htlast]

/-- When the head is neither whitespace nor leading-wrap, sanitization only
removes a suffix. -/
theorem sanitize_prefix_of_clean_head (c : Char) (t : List Char)
    (hws : c.isWhitespace = false) (hl : isLeadWrap c = false) :
    sanitizeExtractedIdentifier (c :: t) <+: (c :: t) := by
  unfold sanitizeExtractedIdentifier
  rw [List.dropWhile_cons_of_neg (by simp [hws])]
  rcases head?_of_prefix (List.rdropWhile_prefix Char.isWhitespace (c :: t)) with
    hnil | hhead
  · rw [hnil]
    exact List.nil_prefix
  · rcases hpre : List.rdropWhile Char.isWhitespace (c :: t) with _ | ⟨c', t'⟩
    · exact List.nil_prefix
    · rw [hpre] at hhead
      have hc' : c' = c := by
        simpa using hhead
      subst hc'
      rw [List.dropWhile_cons_of_neg (by simp [hl])]
      exact (List.rdropWhile_prefix isTrailWrap (c' :: t')).trans
        (by rw [← hpre]; exact List.rdropWhile_prefix _ _)

/-- The head of a sanitized identifier is never a leading-wrap character. -/
theorem sanitize_head_not_lead (m : List Char) :
    ∀ c ∈ (sanitizeExtractedIdentifier m).head?, isLeadWrap c = false := by
  intro c hc
  unfold sanitizeExtractedIdentifier at hc
  rcases head?_of_prefix (List.rdropWhile_prefix isTrailWrap
    (((m.dropWhile Char.isWhitespace).rdropWhile Char.isWhitespace).dropWhile
      isLeadWrap)) with hnil | hhead
  · rw [hnil] at hc
    cases hc
  · rw [hhead] at hc
    exact head?_dropWhile_not isLeadWrap _ c hc

/-- The last character of `rdropWhile p l` never satisfies `p`. -/
theorem rdropWhile_getLast?_not (p : Char → Bool) (l : List Char) :
    ∀ c ∈ (List.rdropWhile p l).getLast?, p c = false := by
  intro c hc
  by_cases hne : List.rdropWhile p l = []
  · rw [hne] at hc
    cases hc
  · have hlast := List.rdropWhile_last_not p l hne
    rw [List.getLast?_eq_getLast _ hne] at hc
    have hceq : c = (List.rdropWhile p l).getLast hne := by
      have := hc
      simp only [Option.mem_def, Option.some.injEq] at this
      exact this.symm
    rw [hceq]
    simpa using hlast

/-- The last character of a sanitized identifier is never a trailing-wrap
character. -/
theorem sanitize_getLast_not_trail (m : List Char) :
    ∀ c ∈ (sanitizeExtractedIdentifier m).getLast?, isTrailWrap c = false :=
  fun c hc => rdropWhile_getLast?_not isTrailWrap _ c hc

theorem dedupKeepFirst_sublist :
    ∀ l : List (List Char), (dedupKeepFirst l).Sublist l := by
  intro l
  induction l using dedupKeepFirst.induct with
  | case1 =>
    rw [dedupKeepFirst]
  | case2 a rest ih =>
    rw [dedupKeepFirst]
    exact (ih.trans (List.filter_sublist rest)).cons₂ a

theorem dedupKeepFirst_nodup : ∀ l : List (List Char), (dedupKeepFirst l).Nodup := by
  intro l
  induction l using dedupKeepFirst.induct with
  | case1 =>
    rw [dedupKeepFirst]
    exact List.nodup_nil
  | case2 a rest ih =>
    rw [dedupKeepFirst]
    refine List.nodup_cons.mpr ⟨?_, ih⟩
    intro hmem
    have hfil := (dedupKeepFirst_sublist _).mem hmem
    have := (List.mem_filter.mp hfil).2
    simp at this

theorem scanIdents_cons_some (prev : Option Char) (c : Char) (rest : List Char)
    (n : ℕ) (h : tryMatchAt prev (c :: rest) = some n) :
    scanIdents prev (c :: rest)
      = (c :: rest).take n
        :: scanIdents ((c :: rest).take n).getLast? ((c :: rest).drop n) := by
  rw [scanIdents.eq_def]
  dsimp only
  split
  · rename_i n' h'
    rw [h'] at h
    injection h with hnn
    subst hnn
    rfl
  · rename_i h'
    rw [h'] at h
    cases h

theorem scanIdents_cons_none (prev : Option Char) (c : Char) (rest : List Char)
    (h : tryMatchAt prev (c :: rest) = none) :
    scanIdents prev (c :: rest) = scanIdents (some c) rest := by
  rw [scanIdents.eq_def]
  dsimp only
  split
  · rename_i n' h'
    rw [h'] at h
    cases h
  · rfl

/-- Every emitted match is `t.take n` for some scanner state `(p, t)` with
`tryMatchAt p t = some n`. -/
theorem mem_scanIdents (prev : Option Char) (s : List Char) (m : List Char)
    (hm : m ∈ scanIdents prev s) :
    ∃ p t n, tryMatchAt p t = some n ∧ m = t.take n := by
  induction prev, s using scanIdents.induct with
  | case1 prev => rw [scanIdents] at hm; cases hm
  | case2 prev c rest n h ih =>
    rw [scanIdents_cons_some prev c rest n h] at hm
    rcases List.mem_cons.mp hm with rfl | hm'
    · exact ⟨prev, c :: rest, n, h, rfl⟩
    · exact ih hm'
  | case3 prev c rest h ih =>
    rw [scanIdents_cons_none prev c rest h] at hm
    exact ih hm

/-! ### Per-alternative facts: no sanitized match is a bare 4–5 digit
integer -/

/-- The property claimed never to hold of an extracted identifier. -/
def isBareShortNumber (e : List Char) : Prop :=
  4 ≤ e.length ∧ e.length ≤ 5 ∧ ∀ c ∈ e, c.isDigit = true

/-- A match that is a takeWhile-run of hex digits of length ≥ 6 sanitizes to
itself and is too long to be a bare 4–5 digit integer. -/
theorem hexRun_not_bare (m : List Char) (hall : ∀ c ∈ m, isHexDigit c = true)
    (hlen : 6 ≤ m.length) : ¬ isBareShortNumber (sanitizeExtractedIdentifier m) := by
  have hsan : sanitizeExtractedIdentifier m = m := by
    apply sanitize_eq_self
    · intro c hc
      have := hexDigit_not_special c (hall c (List.mem_of_mem_head? hc))
      exact ⟨this.1, this.2.1⟩
    · intro c hc
      have := hexDigit_not_special c (hall c (List.mem_of_mem_getLast? hc))
      exact ⟨this.1, this.2.2⟩
  rw [hsan]
  rintro ⟨_, hb, _⟩
  omega

/-- A match whose head is a clean non-digit character is never sanitized into
a bare digit string (of length ≥ 4). -/
theorem cleanHead_not_bare (c : Char) (t : List Char)
    (hws : c.isWhitespace = false) (hl : isLeadWrap c = false)
    (hd : c.isDigit = false) :
    ¬ isBareShortNumber (sanitizeExtractedIdentifier (c :: t)) := by
  rintro ⟨hlen, _, hdig⟩
  have hpre := sanitize_prefix_of_clean_head c t hws hl
  rcases head?_of_prefix hpre with hnil | hhead
  · rw [hnil] at hlen
    simp at hlen
  · rcases hsan : sanitizeExtractedIdentifier (c :: t) with _ | ⟨c', t'⟩
    · rw [hsan] at hlen
      simp at hlen
    · rw [hsan] at hhead
      have : c' = c := by simpa using hhead
      subst this
      have := hdig c' (by rw [hsan]; exact List.mem_cons_self _ _)
      rw [this] at hd
      cases hd

theorem alpha_not_special (c : Char) (h : c.isAlpha = true) :
    c.isWhitespace = false ∧ isLeadWrap c = false := by
  refine ⟨?_, ?_⟩
  · by_contra hws
    rw [Bool.not_eq_false] at hws
    simp only [Char.isWhitespace, Bool.or_eq_true, decide_eq_true_eq] at hws
    rcases hws with ((rfl | rfl) | rfl) | rfl <;> revert h <;> decide
  · by_contra hl
    rw [Bool.not_eq_false] at hl
    have hmem : c ∈ leadWrapChars := by simpa [isLeadWrap] using hl
    fin_cases hmem <;> revert h <;> decide

/-- A match whose second character is `:` (with a clean head) never sanitizes
to a bare digit string of length ≥ 4. -/
theorem secondColon_not_bare (c : Char) (t : List Char)
    (hws : c.isWhitespace = false) (hl : isLeadWrap c = false) :
    ¬ isBareShortNumber (sanitizeExtractedIdentifier (c :: ':' :: t)) := by
  rintro ⟨hlen, _, hdig⟩
  obtain ⟨u, hu⟩ := sanitize_prefix_of_clean_head c (':' :: t) hws hl
  rcases hsan : sanitizeExtractedIdentifier (c :: ':' :: t) with _ | ⟨s0, _ | ⟨s1, srest⟩⟩
  · rw [hsan] at hlen
    simp at hlen
  · rw [hsan] at hlen
    simp at hlen
  · rw [hsan] at hu
    simp only [List.cons_append] at hu
    injection hu with h0 hu'
    injection hu' with h1 hu''
    have hmem : s1 ∈ sanitizeExtractedIdentifier (c :: ':' :: t) := by
      rw [hsan]
      exact List.mem_cons_of_mem _ (List.mem_cons_self _ _)
    have := hdig s1 hmem
    rw [h1] at this
    exact absurd this (by decide)

theorem altHex_take (t : List Char) (n : ℕ) (h : altHex t = some n) :
    t.take n = t.takeWhile isHexDigit ∧ 8 ≤ n
      ∧ n = (t.takeWhile isHexDigit).length := by
  unfold altHex at h
  dsimp only at h
  split at h
  · rename_i hr
    cases h
    exact ⟨take_takeWhile_length _ _, hr, rfl⟩
  · cases h

theorem altUrl_head (t : List Char) (n : ℕ) (h : altUrl t = some n) :
    ∃ rest, t = 'h' :: rest := by
  unfold altUrl at h
  split at h
  · exact ⟨_, rfl⟩
  · cases h

theorem altPath_head (t : List Char) (n : ℕ) (h : altPath t = some n) :
    ∃ rest, t = '/' :: rest := by
  unfold altPath at h
  split at h
  · exact ⟨_, rfl⟩
  · cases h

theorem altWin_shape (t : List Char) (n : ℕ) (h : altWin t = some n) :
    ∃ c rest, t = c :: ':' :: '\\' :: rest ∧ c.isAlpha = true ∧ 2 ≤ n := by
  unfold altWin at h
  split at h
  · rename_i c rest
    split at h
    · rename_i halpha
      dsimp only at h
      split at h
      · cases h
        exact ⟨c, rest, rfl, halpha, by omega⟩
      · cases h
    · cases h
  · cases h

theorem altBigInt_take (p : Option Char) (t : List Char) (n : ℕ)
    (h : altBigInt p t = some n) :
    t.take n = t.takeWhile Char.isDigit ∧ 6 ≤ n
      ∧ n = (t.takeWhile Char.isDigit).length := by
  rw [altBigInt.eq_def] at h
  dsimp only at h
  split at h
  · cases h
  · split at h
    · cases h
    · rename_i hr
      split at h
      · cases h
        exact ⟨take_takeWhile_length _ _, by omega, rfl⟩
      · split at h
        · cases h
        · cases h
          exact ⟨take_takeWhile_length _ _, by omega, rfl⟩

theorem altHostPort_core (t rest : List Char) (a bTail d : ℕ)
    (ha : a = (t.takeWhile isHostChar).length) (hapos : 1 ≤ a)
    (heq : t.drop (a + bTail) = ':' :: rest)
    (hd : 1 ≤ d) (hdle : d ≤ (rest.takeWhile Char.isDigit).length) :
    ∃ X Y, t.take (a + bTail + 1 + d) = X ++ ':' :: Y ∧ Y ≠ []
      ∧ (∀ c ∈ Y, c.isDigit = true)
      ∧ (∀ c ∈ (t.take (a + bTail + 1 + d)).head?, isHostChar c = true) := by
  have hsplit : t = t.take (a + bTail) ++ ':' :: rest := by
    conv_lhs => rw [← List.take_append_drop (a + bTail) t]
    rw [heq]
  have hlen_take : (t.take (a + bTail)).length = a + bTail := by
    rw [List.length_take]
    have : ¬ t.length ≤ a + bTail := by
      intro hle
      rw [List.drop_eq_nil_iff.mpr hle] at heq
      cases heq
    omega
  refine ⟨t.take (a + bTail), rest.take d, ?_, ?_, ?_, ?_⟩
  · conv_lhs => rw [hsplit]
    rw [show a + bTail + 1 + d = (t.take (a + bTail)).length + (1 + d) by
      rw [hlen_take]; omega]
    rw [List.take_append, show 1 + d = d + 1 by omega, List.take_succ_cons]
  · have hdrest : d ≤ rest.length :=
      le_trans hdle (List.Sublist.length_le
        (List.IsPrefix.sublist (List.takeWhile_prefix _)))
    apply List.ne_nil_of_length_pos
    rw [List.length_take]
    omega
  · intro c hcmem
    obtain ⟨u, hu⟩ := List.takeWhile_prefix (l := rest) Char.isDigit
    have htake : rest.take d = (rest.takeWhile Char.isDigit).take d := by
      conv_lhs => rw [← hu]
      rw [List.take_append_eq_append_take,
        show d - (rest.takeWhile Char.isDigit).length = 0 by omega,
        List.take_zero, List.append_nil]
    rw [htake] at hcmem
    exact List.mem_takeWhile_imp ((List.take_sublist _ _).mem hcmem)
  · intro c hcmem
    cases t with
    | nil =>
      rw [ha] at hapos
      simp at hapos
    | cons c₀ t' =>
      have hc₀ : isHostChar c₀ = true := by
        by_contra hcon
        rw [ha, List.takeWhile_cons_of_neg hcon] at hapos
        simp at hapos
      obtain ⟨k, hk⟩ : ∃ k, a + bTail + 1 + d = k + 1 := ⟨a + bTail + d, by omega⟩
      rw [hk, List.take_succ_cons] at hcmem
      cases hcmem
      exact hc₀

theorem altHostPort_shape (t : List Char) (n : ℕ) (h : altHostPort t = some n) :
    ∃ X Y, t.take n = X ++ ':' :: Y ∧ Y ≠ []
      ∧ (∀ c ∈ Y, c.isDigit = true)
      ∧ (∀ c ∈ (t.take n).head?, isHostChar c = true) := by
  replace h :
      (if 1 ≤ (t.takeWhile isHostChar).length
          ∧ (if 1 ≤ ((t.drop (t.takeWhile isHostChar).length).takeWhile
                isHostPortChar).length
             then ((t.take (t.takeWhile isHostChar).length).drop 1).contains '.'
             else ((t.take ((t.takeWhile isHostChar).length - 1)).drop 1).contains '.')
            = true
       then
         match t.drop ((t.takeWhile isHostChar).length
             + ((t.drop (t.takeWhile isHostChar).length).takeWhile
                 isHostPortChar).length) with
         | ':' :: rest =>
           if 1 ≤ min 5 (rest.takeWhile Char.isDigit).length
           then some ((t.takeWhile isHostChar).length
               + ((t.drop (t.takeWhile isHostChar).length).takeWhile
                   isHostPortChar).length
               + 1 + min 5 (rest.takeWhile Char.isDigit).length)
           else none
         | _ => none
       else none) = some n := h
  set a := (t.takeWhile isHostChar).length with ha
  set bTail := ((t.drop a).takeWhile isHostPortChar).length with hb
  split at h
  all_goals
    split at h
    · rename_i hc
      split at h
      next x rest heq =>
        split at h
        · rename_i hd
          injection h with hn
          subst hn
          exact altHostPort_core t rest a bTail _ ha hc.1 heq hd (min_le_right _ _)
        · cases h
      next x heq => cases h
    · cases h

theorem altHostPort_not_bare (t : List Char) (n : ℕ) (h : altHostPort t = some n) :
    ¬ isBareShortNumber (sanitizeExtractedIdentifier (t.take n)) := by
  obtain ⟨X, Y, hXY, hYne, hYdig, hhead⟩ := altHostPort_shape t n h
  have hsan : sanitizeExtractedIdentifier (t.take n) = t.take n := by
    apply sanitize_eq_self
    · intro c hc
      exact hostChar_not_special c (hhead c hc)
    · intro c hc
      rw [hXY, List.getLast?_append] at hc
      have hYlast : (':' :: Y).getLast? = Y.getLast? := by
        rcases Y with _ | ⟨y, Y'⟩
        · exact absurd rfl hYne
        · rw [show (':' :: y :: Y' : List Char) = [':'] ++ (y :: Y') from rfl,
            List.getLast?_append]
          rcases hY : (y :: Y').getLast? with _ | z
          · rw [List.getLast?_eq_getLast _ (List.cons_ne_nil _ _)] at hY
            cases hY
          · simp
      rw [hYlast] at hc
      rcases hY : Y.getLast? with _ | z
      · rcases Y with _ | ⟨y, Y'⟩
        · exact absurd rfl hYne
        · rw [List.getLast?_eq_getLast _ (List.cons_ne_nil _ _)] at hY
          cases hY
      · rw [hY] at hc
        have hcz : c = z := by
          have := hc
          simp only [Option.or, Option.mem_def, Option.some.injEq] at this
          exact this.symm
        subst hcz
        have hcY : c ∈ Y := List.mem_of_mem_getLast? (by rw [hY]; rfl)
        have := hexDigit_not_special c (isDigit_isHexDigit c (hYdig c hcY))
        exact ⟨this.1, this.2.2⟩
  rw [hsan]
  rintro ⟨_, _, hdig⟩
  have : (':' : Char).isDigit = true :=
    hdig ':' (by rw [hXY]; exact List.mem_append_right _ (List.mem_cons_self _ _))
  exact absurd this (by decide)

/-- No successful match of the regex sanitizes to a bare 4–5 digit integer. -/
theorem tryMatchAt_not_bare (p : Option Char) (t : List Char) (n : ℕ)
    (h : tryMatchAt p t = some n) :
    ¬ isBareShortNumber (sanitizeExtractedIdentifier (t.take n)) := by
  unfold tryMatchAt at h
  split at h
  · rename_i h1
    cases h
    obtain ⟨heq, hlen, hn⟩ := altHex_take t n h1
    rw [heq]
    exact hexRun_not_bare _ (fun c hc => List.mem_takeWhile_imp hc) (by omega)
  · split at h
    · rename_i h2
      cases h
      obtain ⟨rest, rfl⟩ := altUrl_head _ n h2
      have hpos := altUrl_pos _ _ h2
      obtain ⟨k, rfl⟩ : ∃ k, n = k + 1 := ⟨n - 1, by omega⟩
      rw [List.take_succ_cons]
      exact cleanHead_not_bare 'h' _ (by decide) (by decide) (by decide)
    · split at h
      · rename_i h3
        cases h
        obtain ⟨rest, rfl⟩ := altPath_head _ n h3
        have hpos := altPath_pos _ _ h3
        obtain ⟨k, rfl⟩ : ∃ k, n = k + 1 := ⟨n - 1, by omega⟩
        rw [List.take_succ_cons]
        exact cleanHead_not_bare '/' _ (by decide) (by decide) (by decide)
      · split at h
        · rename_i h4
          cases h
          obtain ⟨c, rest, rfl, halpha, hn2⟩ := altWin_shape _ n h4
          obtain ⟨k, rfl⟩ : ∃ k, n = k + 2 := ⟨n - 2, by omega⟩
          rw [show k + 2 = (k + 1) + 1 from rfl, List.take_succ_cons,
            List.take_succ_cons]
          obtain ⟨hws, hl⟩ := alpha_not_special c halpha
          exact secondColon_not_bare c _ hws hl
        · split at h
          · rename_i h5
            cases h
            exact altHostPort_not_bare _ n h5
          · obtain ⟨heq, hlen, hn⟩ := altBigInt_take p t n h
            rw [heq]
            exact hexRun_not_bare _
              (fun c hc => isDigit_isHexDigit c (List.mem_takeWhile_imp hc))
              (by omega)

/-- **C8.** For every input text, `extractOpaqueIdentifiers` returns at most
`MAX_EXTRACTED_IDENTIFIERS = 12` entries, every entry has length ≥ 4, the
entries are pairwise distinct with first occurrence preserved (the output is
a subsequence of the sanitized match list), wrapping punctuation is stripped
from each entry (no entry starts with a leading-wrap character or ends with a
trailing-wrap character), and no entry is a bare integer of 4 or 5 digits. -/
theorem extractOpaqueIdentifiers_spec (text : List Char) :
    (extractOpaqueIdentifiers text).length ≤ 12
    ∧ (∀ e ∈ extractOpaqueIdentifiers text, 4 ≤ e.length)
    ∧ (extractOpaqueIdentifiers text).Nodup
    ∧ (extractOpaqueIdentifiers text).Sublist (sanitizedCandidates text)
    ∧ (∀ e ∈ extractOpaqueIdentifiers text,
        (∀ c ∈ e.head?, isLeadWrap c = false)
        ∧ (∀ c ∈ e.getLast?, isTrailWrap c = false))
    ∧ (∀ e ∈ extractOpaqueIdentifiers text,
        ¬ (4 ≤ e.length ∧ e.length ≤ 5 ∧ ∀ c ∈ e, c.isDigit = true)) := by
  have hsub : (extractOpaqueIdentifiers text).Sublist (sanitizedCandidates text) :=
    (List.take_sublist _ _).trans (dedupKeepFirst_sublist _)
  have hmemsc : ∀ e ∈ extractOpaqueIdentifiers text, e ∈ sanitizedCandidates text :=
    fun e he => hsub.mem he
  have hshape : ∀ e ∈ extractOpaqueIdentifiers text,
      4 ≤ e.length ∧ ∃ m, (∃ p t n, tryMatchAt p t = some n ∧ m = t.take n)
        ∧ e = sanitizeExtractedIdentifier m := by
    intro e he
    have hesc := hmemsc e he
    unfold sanitizedCandidates at hesc
    obtain ⟨hmap, hlen⟩ := List.mem_filter.mp hesc
    obtain ⟨m, hm, rfl⟩ := List.mem_map.mp hmap
    exact ⟨by simpa using hlen, m, mem_scanIdents none text m hm, rfl⟩
  refine ⟨List.length_take_le _ _, fun e he => (hshape e he).1,
    List.Nodup.sublist (List.take_sublist _ _) (dedupKeepFirst_nodup _), hsub,
    ?_, ?_⟩
  · intro e he
    obtain ⟨_, m, _, rfl⟩ := hshape e he
    exact ⟨sanitize_head_not_lead m, sanitize_getLast_not_trail m⟩
  · intro e he
    obtain ⟨_, m, ⟨p, t, n, htm, rfl⟩, rfl⟩ := hshape e he
    exact tryMatchAt_not_bare p t n htm

/-! ## Messages and the preserved-recent-turns split (`part_000`)

`AgentMessage` content is a string or a list of typed blocks; tool results
carry `toolCallId`, `toolName`, `isError` and free-form `details` with
optional `status`/`exitCode`. -/

structure Block where
  type : List Char
  text : Option (List Char)

inductive MsgContent where
  | str (s : List Char)
  | blocks (bs : List Block)

structure ToolDetails where
  status : Option (List Char)
  exitCode : Option ℤ

structure Message where
  role : List Char
  content : MsgContent
  toolCallId : Option (List Char)
  toolName : Option (List Char)
  isError : Bool
  details : Option ToolDetails

/-- `clampNonNegativeInt(value, fallback)`: non-number/non-finite values fall
back, then `Math.max(0, Math.floor(·))`. -/
def clampNonNegativeInt (value : Option ℚ) (fallback : ℚ) : ℤ :=
  let normalized := value.getD fallback
  max 0 ⌊normalized⌋

/-- `resolveRecentTurnsPreserve` (default 3, clamped to `[0, 12]`). -/
def resolveRecentTurnsPreserve (value : Option ℚ) : ℤ :=
  min 12 (clampNonNegativeInt value 3)

/-- `resolveQualityGuardMaxRetries` (default 1, clamped to `[0, 3]`). -/
def resolveQualityGuardMaxRetries (value : Option ℚ) : ℤ :=
  min 3 (clampNonNegativeInt value 1)

def isUserOrAssistant (m : Message) : Bool :=
  m.role == "user".data || m.role == "assistant".data

/-- The newest-to-oldest walk of `splitPreservedRecentTurns`, expressed on the
reversed message list: collect up to `k` user/assistant messages into the
preserved side; once the budget is exhausted everything remaining is
summarizable. -/
def goSplit : List Message → ℕ → List Message × List Message
  | [], _ => ([], [])
  | m :: rest, k =>
    if k = 0 then (m :: rest, [])
    else if isUserOrAssistant m then
      let (s, p) := goSplit rest (k - 1)
      (s, m :: p)
    else
      let (s, p) := goSplit rest k
      (m :: s, p)

/-- `splitPreservedRecentTurns({messages, recentTurnsPreserve})`. -/
def splitPreservedRecentTurns (messages : List Message)
    (recentTurnsPreserve : ℚ) : List Message × List Message :=
  let preserveTurns := min 12 (clampNonNegativeInt (some recentTurnsPreserve) 0)
  if preserveTurns ≤ 0 then (messages, [])
  else
    let preserveMessages := preserveTurns * 2
    let (sR, pR) := goSplit messages.reverse preserveMessages.toNat
    if pR.isEmpty then (messages, [])
    else (sR.reverse, pR.reverse.filter isUserOrAssistant)

theorem goSplit_spec (rev : List Message) (k : ℕ) :
    (goSplit rev k).1.Sublist rev
    ∧ (goSplit rev k).2.Sublist rev
    ∧ rev.Perm ((goSplit rev k).1 ++ (goSplit rev k).2)
    ∧ (∀ m ∈ (goSplit rev k).2, isUserOrAssistant m = true)
    ∧ (goSplit rev k).2.length ≤ k := by
  induction rev generalizing k with
  | nil =>
    simp [goSplit]
  | cons m rest ih =>
    by_cases hk : k = 0
    · subst hk
      simp [goSplit]
    · rw [goSplit]
      rw [if_neg hk]
      by_cases hua : isUserOrAssistant m
      · rw [if_pos hua]
        obtain ⟨hs, hp, hperm, hall, hlen⟩ := ih (k - 1)
        refine ⟨?_, ?_, ?_, ?_, ?_⟩
        · exact (hs.trans (List.sublist_cons_self m rest))
        · exact hp.cons₂ m
        · exact (hperm.cons m).trans List.perm_middle.symm
        · intro x hx
          rcases List.mem_cons.mp hx with rfl | hx'
          · exact hua
          · exact hall x hx'
        · simp only [List.length_cons]
          omega
      · rw [if_neg hua]
        obtain ⟨hs, hp, hperm, hall, hlen⟩ := ih k
        refine ⟨?_, ?_, ?_, ?_, ?_⟩
        · exact hs.cons₂ m
        · exact hp.trans (List.sublist_cons_self m rest)
        · exact hperm.cons m
        · exact hall
        · exact hlen

theorem splitPreservedRecentTurns_eq (messages : List Message) (rtp : ℚ) :
    splitPreservedRecentTurns messages rtp
      = if min 12 (clampNonNegativeInt (some rtp) 0) ≤ 0 then (messages, [])
        else if ((goSplit messages.reverse
            ((min 12 (clampNonNegativeInt (some rtp) 0)) * 2).toNat).2).isEmpty
        then (messages, [])
        else ((goSplit messages.reverse
                ((min 12 (clampNonNegativeInt (some rtp) 0)) * 2).toNat).1.reverse,
              (goSplit messages.reverse
                ((min 12 (clampNonNegativeInt (some rtp) 0)) * 2).toNat).2.reverse.filter
                isUserOrAssistant) := rfl

/-- **C9.** For every message list and every non-negative
`recentTurnsPreserve` value, `splitPreservedRecentTurns` partitions its input
(the two outputs are order-preserving subsequences that together form a
permutation of the input), `preservedMessages` contains only user/assistant
messages, `preservedMessages` has at most `2 × min(12, recentTurnsPreserve)`
elements, and `recentTurnsPreserve = 0` returns `(messages, [])`. -/
theorem splitPreservedRecentTurns_spec (messages : List Message) (rtp : ℚ)
    (h0 : 0 ≤ rtp) :
    messages.Perm ((splitPreservedRecentTurns messages rtp).1
      ++ (splitPreservedRecentTurns messages rtp).2)
    ∧ (splitPreservedRecentTurns messages rtp).1.Sublist messages
    ∧ (splitPreservedRecentTurns messages rtp).2.Sublist messages
    ∧ (∀ m ∈ (splitPreservedRecentTurns messages rtp).2,
        m.role = "user".data ∨ m.role = "assistant".data)
    ∧ ((splitPreservedRecentTurns messages rtp).2.length : ℚ) ≤ 2 * min 12 rtp
    ∧ splitPreservedRecentTurns messages 0 = (messages, []) := by
  have hminq : (0:ℚ) ≤ 2 * min 12 rtp := by
    have : (0:ℚ) ≤ min 12 rtp := le_min (by norm_num) h0
    linarith
  have hzero : splitPreservedRecentTurns messages 0 = (messages, []) := by
    rw [splitPreservedRecentTurns_eq]
    rw [if_pos]
    unfold clampNonNegativeInt
    norm_num
  rw [splitPreservedRecentTurns_eq]
  set pt : ℤ := min 12 (clampNonNegativeInt (some rtp) 0) with hpt
  by_cases hle : pt ≤ 0
  · rw [if_pos hle]
    exact ⟨by simp, List.Sublist.refl _, List.nil_sublist _, by simp,
      by simpa using hminq, hzero⟩
  · rw [if_neg hle]
    obtain ⟨hs, hp, hperm, hall, hlen⟩ :=
      goSplit_spec messages.reverse (pt * 2).toNat
    by_cases hemp : ((goSplit messages.reverse (pt * 2).toNat).2).isEmpty
    · rw [if_pos hemp]
      exact ⟨by simp, List.Sublist.refl _, List.nil_sublist _, by simp,
        by simpa using hminq, hzero⟩
    · rw [if_neg hemp]
      have hallrev : ∀ m ∈ (goSplit messages.reverse (pt * 2).toNat).2.reverse,
          isUserOrAssistant m = true :=
        fun m hm => hall m (List.mem_reverse.mp hm)
      have hfil : (goSplit messages.reverse (pt * 2).toNat).2.reverse.filter
          isUserOrAssistant
          = (goSplit messages.reverse (pt * 2).toNat).2.reverse :=
        List.filter_eq_self.mpr hallrev
      have hsum : (goSplit messages.reverse (pt * 2).toNat).1.reverse.Sublist
          messages := by
        have := hs.reverse
        rwa [List.reverse_reverse] at this
      have hpres : (goSplit messages.reverse (pt * 2).toNat).2.reverse.Sublist
          messages := by
        have := hp.reverse
        rwa [List.reverse_reverse] at this
      refine ⟨?_, hsum, ?_, ?_, ?_, hzero⟩
      · show messages.Perm ((goSplit messages.reverse (pt * 2).toNat).1.reverse
          ++ (goSplit messages.reverse (pt * 2).toNat).2.reverse.filter
              isUserOrAssistant)
        rw [hfil]
        exact ((List.reverse_perm messages).symm.trans hperm).trans
          ((List.reverse_perm _).symm.append (List.reverse_perm _).symm)
      · show ((goSplit messages.reverse (pt * 2).toNat).2.reverse.filter
            isUserOrAssistant).Sublist messages
        rw [hfil]
        exact hpres
      · intro m hm
        rw [hfil] at hm
        have := hallrev m hm
        simp only [isUserOrAssistant, Bool.or_eq_true, beq_iff_eq] at this
        exact this
      · show (((goSplit messages.reverse (pt * 2).toNat).2.reverse.filter
            isUserOrAssistant).length : ℚ) ≤ 2 * min 12 rtp
        rw [hfil, List.length_reverse]
        have h2 : ((pt * 2).toNat : ℤ) = pt * 2 := Int.toNat_of_nonneg (by omega)
        have hlenZ : (((goSplit messages.reverse (pt * 2).toNat).2).length : ℤ)
            ≤ pt * 2 := by
          have hcast := Int.ofNat_le.mpr hlen
          rwa [h2] at hcast
        have hlenQ : (((goSplit messages.reverse (pt * 2).toNat).2).length : ℚ)
            ≤ (pt : ℚ) * 2 := by
          exact_mod_cast hlenZ
        have hclamp : clampNonNegativeInt (some rtp) 0 = ⌊rtp⌋ := by
          unfold clampNonNegativeInt
          simp only [Option.getD_some]
          exact max_eq_right (Int.floor_nonneg.mpr h0)
        have hptq : (pt : ℚ) ≤ min 12 rtp := by
          rw [hpt, hclamp]
          push_cast
          exact min_le_min (le_refl _) (Int.floor_le rtp)
        linarith

/-- A concrete user message used by witnesses. -/
def userMessageExample : Message :=
  ⟨"user".data, MsgContent.str "hello".data, none, none, false, none⟩

/-- Witness for C9 at a concrete one-message list. -/
theorem splitPreservedRecentTurns_spec_witness :
    splitPreservedRecentTurns [userMessageExample] 0 = ([userMessageExample], []) :=
  (splitPreservedRecentTurns_spec [userMessageExample] 1 (by norm_num)).2.2.2.2.2

/-! ## The `session_before_compact` handler (`compactionSafeguardExtension`)

External collaborators that live outside `src/` are abstracted as oracle
fields of `HandlerEnv`: the token estimator, `resolveContextWindowTokens`,
`computeAdaptiveChunkRatio`, `pruneHistoryForContextShare` and
`summarizeInStages` (fallible, `Except`), and the workspace-rules reader
(which never throws — it swallows its own errors and returns a string).
`getApiKey` is modelled by its spec interface `string?`, so the handler
receives the resolved optional key. -/

def FALLBACK_SUMMARY : List Char :=
  "Summary unavailable due to context limits. Older messages were truncated.".data

def TURN_PREFIX_INSTRUCTIONS : List Char :=
  ("This summary covers the prefix of a split turn. Focus on the original request,"
    ++ " early progress, and any details needed to understand the retained suffix.").data

def MAX_TOOL_FAILURES : ℕ := 8

def MAX_TOOL_FAILURE_CHARS : ℕ := 240

def MAX_RECENT_TURN_TEXT_CHARS : ℕ := 600

/-- Modelled from the spec: `SAFETY_MARGIN = 1.2` is defined in the
compaction module (`../compaction.js`), which is not under `src/`; the
handler multiplies the history budget by it. -/
def SAFETY_MARGIN : ℚ := 6/5

/-- JavaScript `String.prototype.trim` (both ends). -/
def trimChars (l : List Char) : List Char :=
  (l.dropWhile Char.isWhitespace).rdropWhile Char.isWhitespace

/-- `extractMessageText(message)`. -/
def extractMessageText (m : Message) : List Char :=
  match m.content with
  | .str s => trimChars s
  | .blocks bs =>
    let parts := bs.filterMap (fun b =>
      match b.text with
      | some t => if (trimChars t).length > 0 then some (trimChars t) else none
      | none => none)
    trimChars (List.intercalate "\n".data parts)

/-- `extractToolResultText(content)`: text of the `type: "text"` blocks. -/
def extractToolResultText (c : MsgContent) : List Char :=
  match c with
  | .str _ => []
  | .blocks bs =>
    List.intercalate "\n".data
      (bs.filterMap (fun b =>
        match b.text with
        | some t => if b.type = "text".data then some t else none
        | none => none))

/-- `text.replace(/\s+/g, " ")`: collapse every whitespace run to one space. -/
def collapseWhitespace : List Char → List Char
  | [] => []
  | c :: rest =>
    if c.isWhitespace then ' ' :: collapseWhitespace (rest.dropWhile Char.isWhitespace)
    else c :: collapseWhitespace rest
termination_by l => l.length
decreasing_by
  · have h := List.Sublist.length_le (List.dropWhile_sublist (p := Char.isWhitespace) (l := rest))
    simp only [List.length_cons]
    omega
  · simp only [List.length_cons]
    omega

def normalizeFailureText (text : List Char) : List Char :=
  trimChars (collapseWhitespace text)

def truncateFailureText (text : List Char) (maxChars : ℕ) : List Char :=
  if text.length ≤ maxChars then text
  else text.take (maxChars - 3) ++ "...".data

/-- `formatToolFailureMeta(details)`: `status=…` and/or `exitCode=…`. -/
def formatToolFailureMeta (details : Option ToolDetails) : Option (List Char) :=
  match details with
  | none => none
  | some d =>
    let statusParts := match d.status with
      | some s => if s ≠ [] then ["status=".data ++ s] else []
      | none => []
    let exitParts := match d.exitCode with
      | some n => ["exitCode=".data ++ (toString n).data]
      | none => []
    let parts := statusParts ++ exitParts
    if parts.isEmpty then none else some (List.intercalate " ".data parts)

structure ToolFailure where
  toolCallId : List Char
  toolName : List Char
  summary : List Char
  meta : Option (List Char)

/-- The loop body of `collectToolFailures`, threading the `seen` id set. -/
def collectToolFailuresAux (seen : List (List Char)) : List Message → List ToolFailure
  | [] => []
  | message :: rest =>
    if message.role ≠ "toolResult".data then collectToolFailuresAux seen rest
    else if message.isError ≠ true then collectToolFailuresAux seen rest
    else
      match message.toolCallId with
      | none => collectToolFailuresAux seen rest
      | some toolCallId =>
        if toolCallId = [] ∨ seen.contains toolCallId then
          collectToolFailuresAux seen rest
        else
          let toolName := match message.toolName with
            | some nm => if trimChars nm ≠ [] then nm else "tool".data
            | none => "tool".data
          let rawText := extractToolResultText message.content
          let meta := formatToolFailureMeta message.details
          let normalized := normalizeFailureText rawText
          let summary := truncateFailureText
            (if normalized ≠ [] then normalized
             else if meta.isSome then "failed".data else "failed (no output)".data)
            MAX_TOOL_FAILURE_CHARS
          ⟨toolCallId, toolName, summary, meta⟩
            :: collectToolFailuresAux (toolCallId :: seen) rest

def collectToolFailures (messages : List Message) : List ToolFailure :=
  collectToolFailuresAux [] messages

/-- `formatToolFailuresSection(failures)`. -/
def formatToolFailuresSection (failures : List ToolFailure) : List Char :=
  if failures.length = 0 then []
  else
    let lines := (failures.take MAX_TOOL_FAILURES).map (fun failure =>
      let meta := match failure.meta with
        | some m => " (".data ++ m ++ ")".data
        | none => []
      "- ".data ++ failure.toolName ++ meta ++ ": ".data ++ failure.summary)
    let lines :=
      if failures.length > MAX_TOOL_FAILURES then
        lines ++ ["- ...and ".data
          ++ (toString (failures.length - MAX_TOOL_FAILURES)).data ++ " more".data]
      else lines
    "\n\n## Tool Failures\n".data ++ List.intercalate "\n".data lines

structure FileOperations where
  read : List (List Char)
  edited : List (List Char)
  written : List (List Char)

/-- Strict lexicographic comparison by character code (the JavaScript default
sort comparator on strings). -/
def lexLt : List Char → List Char → Bool
  | [], [] => false
  | [], _ :: _ => true
  | _ :: _, [] => false
  | a :: as, b :: bs => if a < b then true else if b < a then false else lexLt as bs

def insertStr (x : List Char) : List (List Char) → List (List Char)
  | [] => [x]
  | y :: ys => if lexLt x y then x :: y :: ys else y :: insertStr x ys

/-- `Array.prototype.toSorted()` with the default (lexicographic) comparator. -/
def sortStrings (l : List (List Char)) : List (List Char) :=
  l.foldl (fun acc x => insertStr x acc) []

/-- `computeFileLists(fileOps)`: `modified = edited ∪ written` (insertion
order), `readFiles = read ∖ modified`, both sorted. -/
def computeFileLists (fileOps : FileOperations) :
    List (List Char) × List (List Char) :=
  let modified := dedupKeepFirst (fileOps.edited ++ fileOps.written)
  let readFiles := sortStrings (fileOps.read.filter (fun f => ¬ modified.contains f))
  let modifiedFiles := sortStrings modified
  (readFiles, modifiedFiles)

/-- `formatFileOperations(readFiles, modifiedFiles)`. -/
def formatFileOperations (readFiles modifiedFiles : List (List Char)) : List Char :=
  let sections : List (List Char) :=
    (if readFiles.length > 0 then
      ["<read-files>\n".data ++ List.intercalate "\n".data readFiles
        ++ "\n</read-files>".data]
     else [])
    ++ (if modifiedFiles.length > 0 then
      ["<modified-files>\n".data ++ List.intercalate "\n".data modifiedFiles
        ++ "\n</modified-files>".data]
     else [])
  if sections.length = 0 then []
  else "\n\n".data ++ List.intercalate "\n\n".data sections

/-- `formatPreservedTurnsSection(messages)`. -/
def formatPreservedTurnsSection (messages : List Message) : List Char :=
  if messages.length = 0 then []
  else
    let lines := messages.filterMap (fun message =>
      let role := if message.role = "assistant".data then "Assistant".data else "User".data
      let text := extractMessageText message
      if text = [] then none
      else
        let trimmed :=
          if text.length > MAX_RECENT_TURN_TEXT_CHARS then
            text.take MAX_RECENT_TURN_TEXT_CHARS ++ "...".data
          else text
        some ("- ".data ++ role ++ ": ".data ++ trimmed))
    if lines.length = 0 then []
    else "\n\n## Recent turns preserved verbatim\n".data
      ++ List.intercalate "\n".data lines

/-- `buildCompactionStructureInstructions(customInstructions?)`. -/
def buildCompactionStructureInstructions
    (customInstructions : Option (List Char)) : List Char :=
  let sectionsTemplate := List.intercalate "\n".data
    (["Produce a compact, factual summary with these exact section headings:".data]
      ++ REQUIRED_SUMMARY_SECTIONS
      ++ [("For ## Exact identifiers, preserve literal values exactly as seen"
            ++ " (IDs, URLs, file paths, ports, hashes, dates, times).").data,
          "Do not omit unresolved asks from the user.".data])
  let custom := (customInstructions.map trimChars).getD []
  if custom = [] then sectionsTemplate
  else sectionsTemplate ++ "\n\nAdditional focus:\n".data ++ custom

/-- The newest-to-oldest search of `extractLatestUserAsk`, on the reversed
list. -/
def findLatestAsk : List Message → Option (List Char)
  | [] => none
  | m :: rest =>
    if m.role = "user".data then
      let text := extractMessageText m
      if text ≠ [] then some text else findLatestAsk rest
    else findLatestAsk rest

def extractLatestUserAsk (messages : List Message) : Option (List Char) :=
  findLatestAsk messages.reverse

/-- `Array.prototype.slice(-n)`. -/
def takeLast {α : Type} (l : List α) (n : ℕ) : List α :=
  l.drop (l.length - n)

structure CompactionDetails where
  readFiles : List (List Char)
  modifiedFiles : List (List Char)
deriving DecidableEq

structure CompactionArtifact where
  summary : List Char
  firstKeptEntryId : List Char
  tokensBefore : Option ℚ
  details : CompactionDetails

/-- `CompactionRequest` (`event.preparation`); `reserveTokens` is
`settings.reserveTokens`. -/
structure CompactionRequest where
  messagesToSummarize : List Message
  turnPrefixMessages : List Message
  isSplitTurn : Bool
  firstKeptEntryId : List Char
  tokensBefore : Option ℚ
  previousSummary : Option (List Char)
  reserveTokens : ℚ
  fileOps : FileOperations

structure SafeguardRuntime where
  contextWindowTokens : Option ℚ
  recentTurnsPreserve : Option ℚ
  qualityGuardEnabled : Option Bool
  qualityGuardMaxRetries : Option ℚ
  maxHistoryShare : Option ℚ

/-- The arguments of one `summarizeInStages` call (model, api key and signal
are fixed per request and omitted). -/
structure SummArgs where
  messages : List Message
  reserveTokens : ℤ
  maxChunkTokens : ℤ
  contextWindow : ℚ
  customInstructions : Option (List Char)
  previousSummary : Option (List Char)

/-- The result of `pruneHistoryForContextShare`. -/
structure PruneResult where
  messages : List Message
  droppedMessages : ℕ
  droppedChunks : ℕ
  droppedMessagesList : List Message

/-- Oracles for the collaborators defined outside `src/`. -/
structure HandlerEnv where
  est : List Message → ℚ
  resolveContextWindowTokens : ℚ
  computeAdaptiveChunkRatio : List Message → ℚ → ℚ
  prune : List Message → ℚ → ℚ → ℕ → PruneResult
  summarize : SummArgs → Except (List Char) (List Char)
  workspaceContext : List Char

/-- The PRUNE step: when `tokensBefore` is known and the new content exceeds
the history budget, prune in 2 parts and (on any drop) summarize the dropped
messages, swallowing that summarization's errors (inner `try`/`catch`). -/
def runPrunePhase (env : HandlerEnv) (req : CompactionRequest)
    (customInstructions : Option (List Char))
    (contextWindowTokens maxHistoryShare : ℚ) :
    List Message × Option (List Char) :=
  match req.tokensBefore with
  | none => (req.messagesToSummarize, none)
  | some tokensBefore =>
    let summarizableTokens :=
      env.est req.messagesToSummarize + env.est req.turnPrefixMessages
    let newContentTokens : ℤ := max 0 ⌊tokensBefore - summarizableTokens⌋
    let maxHistoryTokens : ℤ := ⌊contextWindowTokens * maxHistoryShare * SAFETY_MARGIN⌋
    if newContentTokens > maxHistoryTokens then
      let pruned := env.prune req.messagesToSummarize contextWindowTokens maxHistoryShare 2
      if pruned.droppedChunks > 0 then
        if pruned.droppedMessagesList.length > 0 then
          let droppedChunkRatio :=
            env.computeAdaptiveChunkRatio pruned.droppedMessagesList contextWindowTokens
          let droppedMaxChunkTokens : ℤ := max 1 ⌊contextWindowTokens * droppedChunkRatio⌋
          match env.summarize ⟨pruned.droppedMessagesList, max 1 ⌊req.reserveTokens⌋,
            droppedMaxChunkTokens, contextWindowTokens, customInstructions,
            req.previousSummary⟩ with
          | Except.ok droppedSummary => (pruned.messages, some droppedSummary)
          | Except.error _ => (pruned.messages, none)
        else (pruned.messages, none)
      else (req.messagesToSummarize, none)
    else (req.messagesToSummarize, none)

/-- The SUMMARIZE retry loop: the first argument of the recursion is the
number of remaining attempts (`totalAttempts` at the start); the loop stops
early when the guard is disabled or the audit passes, and on the last attempt
regardless. -/
def summarizeAttempts (env : HandlerEnv)
    (messagesToSummarize turnPrefixMessages : List Message) (isSplitTurn : Bool)
    (reserveTokens maxChunkTokens : ℤ) (contextWindowTokens : ℚ)
    (effectivePreviousSummary : Option (List Char))
    (preservedTurnsSection : List Char) (qualityGuardEnabled : Bool)
    (identifiers : List (List Char)) (latestUserAsk : Option (List Char))
    (structuredInstructions : List Char) :
    ℕ → List Char → Except (List Char) (List Char)
  | 0, _ => Except.ok []
  | n + 1, currentInstructions => do
    let historySummary ← env.summarize ⟨messagesToSummarize, reserveTokens,
      maxChunkTokens, contextWindowTokens, some currentInstructions,
      effectivePreviousSummary⟩
    let summary ←
      if isSplitTurn = true ∧ turnPrefixMessages.length > 0 then do
        let prefixSummary ← env.summarize ⟨turnPrefixMessages, reserveTokens,
          maxChunkTokens, contextWindowTokens,
          some (TURN_PREFIX_INSTRUCTIONS ++ "\n\n".data ++ currentInstructions), none⟩
        pure (historySummary
          ++ "\n\n---\n\n**Turn Context (split turn):**\n\n".data ++ prefixSummary)
      else pure historySummary
    let summary := summary ++ preservedTurnsSection
    if ¬ qualityGuardEnabled then pure summary
    else
      let quality := auditSummaryQuality summary identifiers latestUserAsk
      if quality.ok = true ∨ n = 0 then pure summary
      else
        let reasons := List.intercalate ", ".data quality.reasons
        summarizeAttempts env messagesToSummarize turnPrefixMessages isSplitTurn
          reserveTokens maxChunkTokens contextWindowTokens effectivePreviousSummary
          preservedTurnsSection qualityGuardEnabled identifiers latestUserAsk
          structuredInstructions n
          (structuredInstructions
            ++ "\n\nPrevious summary failed quality checks (".data ++ reasons
            ++ ("). Fix all issues and include every required section with"
                ++ " exact identifiers preserved.").data)

/-- The body of the `try` block of the handler. -/
def compactionTryBody (env : HandlerEnv) (req : CompactionRequest)
    (runtime : Option SafeguardRuntime) (customInstructions : Option (List Char))
    (readFiles modifiedFiles : List (List Char))
    (toolFailureSection fileOpsSummary : List Char) :
    Except (List Char) CompactionArtifact := do
  let contextWindowTokens :=
    (runtime.bind (fun r => r.contextWindowTokens)).getD env.resolveContextWindowTokens
  let turnPrefixMessages := req.turnPrefixMessages
  let recentTurnsPreserve :=
    resolveRecentTurnsPreserve (runtime.bind (fun r => r.recentTurnsPreserve))
  let qualityGuardEnabled := (runtime.bind (fun r => r.qualityGuardEnabled)).getD true
  let qualityGuardMaxRetries :=
    resolveQualityGuardMaxRetries (runtime.bind (fun r => r.qualityGuardMaxRetries))
  let maxHistoryShare := (runtime.bind (fun r => r.maxHistoryShare)).getD (1/2)
  let (prunedMessages, droppedSummary) :=
    runPrunePhase env req customInstructions contextWindowTokens maxHistoryShare
  let (messagesToSummarize, preservedRecentMessages) :=
    splitPreservedRecentTurns prunedMessages (recentTurnsPreserve : ℚ)
  let preservedTurnsSection := formatPreservedTurnsSection preservedRecentMessages
  let latestUserAsk := extractLatestUserAsk
    (messagesToSummarize ++ preservedRecentMessages ++ turnPrefixMessages)
  let identifierSeedText := List.intercalate "\n".data
    (((takeLast (messagesToSummarize ++ preservedRecentMessages) 10).map
        extractMessageText).filter (fun t => t ≠ []))
  let identifiers := extractOpaqueIdentifiers identifierSeedText
  let structuredInstructions := buildCompactionStructureInstructions customInstructions
  let allMessages := messagesToSummarize ++ turnPrefixMessages
  let adaptiveRatio := env.computeAdaptiveChunkRatio allMessages contextWindowTokens
  let maxChunkTokens : ℤ := max 1 ⌊contextWindowTokens * adaptiveRatio⌋
  let reserveTokens : ℤ := max 1 ⌊req.reserveTokens⌋
  let effectivePreviousSummary := droppedSummary.or req.previousSummary
  let totalAttempts := if qualityGuardEnabled then qualityGuardMaxRetries.toNat + 1 else 1
  let summary ← summarizeAttempts env messagesToSummarize turnPrefixMessages
    req.isSplitTurn reserveTokens maxChunkTokens contextWindowTokens
    effectivePreviousSummary preservedTurnsSection qualityGuardEnabled identifiers
    latestUserAsk structuredInstructions totalAttempts structuredInstructions
  let summary := summary ++ toolFailureSection
  let summary := summary ++ fileOpsSummary
  let summary :=
    if env.workspaceContext ≠ [] then summary ++ env.workspaceContext else summary
  Except.ok ⟨summary, req.firstKeptEntryId, req.tokensBefore,
    ⟨readFiles, modifiedFiles⟩⟩

/-- The `session_before_compact` handler: fallback artifact when no model or
no API key, otherwise the `try` body with a catch-all returning the fallback
artifact. -/
def sessionBeforeCompact (env : HandlerEnv) (req : CompactionRequest)
    (model apiKey : Option (List Char)) (runtime : Option SafeguardRuntime)
    (customInstructions : Option (List Char)) : CompactionArtifact :=
  let (readFiles, modifiedFiles) := computeFileLists req.fileOps
  let fileOpsSummary := formatFileOperations readFiles modifiedFiles
  let toolFailures := collectToolFailures
    (req.messagesToSummarize ++ req.turnPrefixMessages)
  let toolFailureSection := formatToolFailuresSection toolFailures
  let fallbackSummary := FALLBACK_SUMMARY ++ toolFailureSection ++ fileOpsSummary
  match model with
  | none =>
    ⟨fallbackSummary, req.firstKeptEntryId, req.tokensBefore,
      ⟨readFiles, modifiedFiles⟩⟩
  | some _ =>
    match apiKey with
    | none =>
      ⟨fallbackSummary, req.firstKeptEntryId, req.tokensBefore,
        ⟨readFiles, modifiedFiles⟩⟩
    | some _ =>
      match compactionTryBody env req runtime customInstructions readFiles
        modifiedFiles toolFailureSection fileOpsSummary with
      | Except.ok artifact => artifact
      | Except.error _ =>
        ⟨fallbackSummary, req.firstKeptEntryId, req.tokensBefore,
          ⟨readFiles, modifiedFiles⟩⟩

/-- A trivial oracle environment used to instantiate the handler on a
concrete input. -/
def envW : HandlerEnv :=
  ⟨fun _ => 0, 1000, fun _ _ => 1/2, fun m _ _ _ => ⟨m, 0, 0, []⟩,
    fun _ => Except.error "unavailable".data, []⟩

/-- A concrete empty compaction request. -/
def reqW : CompactionRequest :=
  ⟨[], [], false, "entry-1".data, some 42, none, 0, ⟨[], [], []⟩⟩

theorem except_bind_ok {ε α β : Type} {x : Except ε α} {f : α → Except ε β}
    {b : β} (h : x.bind f = Except.ok b) :
    ∃ a, x = Except.ok a ∧ f a = Except.ok b := by
  cases x with
  | ok a => exact ⟨a, rfl, h⟩
  | error e => simp [Except.bind] at h

theorem compactionTryBody_ok (env : HandlerEnv) (req : CompactionRequest)
    (runtime : Option SafeguardRuntime) (ci : Option (List Char))
    (rf mf : List (List Char)) (tfs fos : List Char) (a : CompactionArtifact)
    (h : compactionTryBody env req runtime ci rf mf tfs fos = Except.ok a) :
    a.firstKeptEntryId = req.firstKeptEntryId ∧
      a.tokensBefore = req.tokensBefore ∧ a.details = ⟨rf, mf⟩ := by
  unfold compactionTryBody at h
  dsimp only at h
  obtain ⟨s, hs, hk⟩ := except_bind_ok h
  injection hk with hk
  subst hk
  exact ⟨rfl, rfl, rfl⟩

/-- C1: the `session_before_compact` handler is a total function, so it always
returns a compaction artifact and never throws. Whatever branch is taken —
normal summarization, the missing-model or missing-API-key early exits, or the
catch of any error raised while summarizing — the returned artifact carries the
request's `firstKeptEntryId`, the request's `tokensBefore`, and the details
`(readFiles, modifiedFiles)` computed from the request's file operations.
Moreover, in the early-exit and error branches the summary is exactly the
fallback summary followed by the tool-failure section and the file-operations
summary of the request. -/
theorem sessionBeforeCompact_spec (env : HandlerEnv) (req : CompactionRequest)
    (model apiKey : Option (List Char)) (runtime : Option SafeguardRuntime)
    (ci : Option (List Char)) :
    (sessionBeforeCompact env req model apiKey runtime ci).firstKeptEntryId
        = req.firstKeptEntryId ∧
    (sessionBeforeCompact env req model apiKey runtime ci).tokensBefore
        = req.tokensBefore ∧
    (sessionBeforeCompact env req model apiKey runtime ci).details
        = ⟨(computeFileLists req.fileOps).1, (computeFileLists req.fileOps).2⟩ ∧
    ((model = none ∨ apiKey = none ∨
        ∃ e, compactionTryBody env req runtime ci
              (computeFileLists req.fileOps).1 (computeFileLists req.fileOps).2
              (formatToolFailuresSection (collectToolFailures
                (req.messagesToSummarize ++ req.turnPrefixMessages)))
              (formatFileOperations (computeFileLists req.fileOps).1
                (computeFileLists req.fileOps).2) = Except.error e) →
      (sessionBeforeCompact env req model apiKey runtime ci).summary
        = FALLBACK_SUMMARY
          ++ formatToolFailuresSection (collectToolFailures
                (req.messagesToSummarize ++ req.turnPrefixMessages))
          ++ formatFileOperations (computeFileLists req.fileOps).1
                (computeFileLists req.fileOps).2) := by
  unfold sessionBeforeCompact
  dsimp only
  rcases model with _ | m
  · exact ⟨rfl, rfl, rfl, fun _ => rfl⟩
  rcases apiKey with _ | k
  · exact ⟨rfl, rfl, rfl, fun _ => rfl⟩
  rcases htb : compactionTryBody env req runtime ci
      (computeFileLists req.fileOps).1 (computeFileLists req.fileOps).2
      (formatToolFailuresSection (collectToolFailures
        (req.messagesToSummarize ++ req.turnPrefixMessages)))
      (formatFileOperations (computeFileLists req.fileOps).1
        (computeFileLists req.fileOps).2) with e | a
  · exact ⟨rfl, rfl, rfl, fun _ => rfl⟩
  · obtain ⟨h1, h2, h3⟩ := compactionTryBody_ok _ _ _ _ _ _ _ _ _ htb
    refine ⟨h1, h2, h3, ?_⟩
    rintro (h | h | ⟨e, he⟩)
    · exact absurd h (by simp)
    · exact absurd h (by simp)
    · exact absurd he (by simp)

/-- C1 at a concrete empty request with no model configured: the handler
returns the fallback artifact carrying the request's fields. -/
theorem sessionBeforeCompact_spec_witness :
    (sessionBeforeCompact envW reqW none none none none).summary
        = FALLBACK_SUMMARY
          ++ formatToolFailuresSection (collectToolFailures
                (reqW.messagesToSummarize ++ reqW.turnPrefixMessages))
          ++ formatFileOperations (computeFileLists reqW.fileOps).1
                (computeFileLists reqW.fileOps).2 ∧
    (sessionBeforeCompact envW reqW none none none none).firstKeptEntryId
        = "entry-1".data ∧
    (sessionBeforeCompact envW reqW none none none none).tokensBefore
        = some 42 :=
  ⟨(sessionBeforeCompact_spec envW reqW none none none none).2.2.2 (Or.inl rfl),
    (sessionBeforeCompact_spec envW reqW none none none none).1,
    (sessionBeforeCompact_spec envW reqW none none none none).2.1⟩

end OpenClaw
